import Mathlib

/-!
Text-Editor: a verification development for `TextEditor.c`.

The development embeds the two parts of the program:

* `WordSearch`, the Knuth-Morris-Pratt search used by menu case 3;
* the line buffer handled by the menu cases of `main` (insert, delete,
  search, save, load).

Conventions of the embedding.

* A C string is the list of its characters before the terminating NUL.
* `int` values are mathematical integers (`Nat` where the code keeps them
  non-negative); lengths and counts are taken to fit the machine type.
* The loops of `WordSearch` are run with a fuel argument, one unit per
  iteration; exhausting the fuel and reading an array outside its bounds
  are reported as a `Fault`, they are never silently repaired.
* The menu cases take what they read (the rest of `stdin`, the number
  parsed by `scanf`, the contents of the file) as arguments; an access
  outside `buffer` or a read of a slot that was never written is reported
  as a `MemoryFault`. `malloc` and `fopen` are taken to succeed.
-/

namespace TextEditor

/-! ## WordSearch -/

/-- Ways in which a run of the embedded `WordSearch` can fail to return. -/
inductive Fault
  | outOfFuel
  | indexOutOfRange
  deriving DecidableEq

deriving instance DecidableEq for Except

/-- Variables of the loop that builds the Longest Prefix-Suffix array
(`TextEditor.c`, lines 40-63). -/
structure TableState where
  prefixPointer : Nat
  suffixPointer : Nat
  LPS : List Nat
  deriving DecidableEq

/-- One iteration of the body of `while (suffixPointer < word_length)`. -/
def tableStep (word : List Char) (s : TableState) : Except Fault TableState :=
  match word[s.suffixPointer]?, word[s.prefixPointer]? with
  | some a, some b =>
    if a = b then
      if s.suffixPointer < s.LPS.length then
        .ok ⟨s.prefixPointer + 1, s.suffixPointer + 1,
          s.LPS.set s.suffixPointer (s.prefixPointer + 1)⟩
      else .error .indexOutOfRange
    else if s.prefixPointer ≠ 0 then
      match s.LPS[s.prefixPointer - 1]? with
      | some v => .ok ⟨v, s.suffixPointer, s.LPS⟩
      | none => .error .indexOutOfRange
    else .ok ⟨s.prefixPointer, s.suffixPointer + 1, s.LPS⟩
  | _, _ => .error .indexOutOfRange

/-- The loop `while (suffixPointer < word_length)`, at most `fuel` iterations. -/
def tableLoop (word : List Char) : Nat → TableState → Except Fault TableState
  | 0, s => if s.suffixPointer < word.length then .error .outOfFuel else .ok s
  | fuel + 1, s =>
    if s.suffixPointer < word.length then
      match tableStep word s with
      | .error e => .error e
      | .ok s' => tableLoop word fuel s'
    else .ok s

/-- The array `LPS` after `calloc` and the table-building loop, run with
fuel `2 * word_length`. -/
def buildLPS (word : List Char) : Except Fault (List Nat) :=
  match tableLoop word (2 * word.length) ⟨0, 1, List.replicate word.length 0⟩ with
  | .error e => .error e
  | .ok s => .ok s.LPS

/-- Variables of the scanning loop (`TextEditor.c`, lines 66-94). -/
structure ScanState where
  wordPointer : Nat
  linePointer : Nat
  deriving DecidableEq

/-- Result of one iteration of the scanning loop: either the loop goes on,
or the function returns `linePointer - wordPointer`. -/
inductive ScanOutcome
  | next (s : ScanState)
  | found (index : Int)
  deriving DecidableEq

/-- One iteration of the body of `while (linePointer < line_length)`. -/
def scanStep (line word : List Char) (LPS : List Nat) (s : ScanState) :
    Except Fault ScanOutcome :=
  match word[s.wordPointer]?, (line)[s.linePointer]? with
  | some a, some b =>
    if a = b then
      if s.wordPointer + 1 = word.length then
        .ok (.found (Int.ofNat (s.linePointer + 1) - Int.ofNat (s.wordPointer + 1)))
      else .ok (.next ⟨s.wordPointer + 1, s.linePointer + 1⟩)
    else if s.wordPointer ≠ 0 then
      match LPS[s.wordPointer - 1]? with
      | some v => .ok (.next ⟨v, s.linePointer⟩)
      | none => .error .indexOutOfRange
    else .ok (.next ⟨s.wordPointer, s.linePointer + 1⟩)
  | _, _ => .error .indexOutOfRange

/-- The loop `while (linePointer < line_length)`, at most `fuel` iterations;
leaving the loop without a match returns `-1`. -/
def scanLoop (line word : List Char) (LPS : List Nat) : Nat → ScanState → Except Fault Int
  | 0, s => if s.linePointer < line.length then .error .outOfFuel else .ok (-1)
  | fuel + 1, s =>
    if s.linePointer < line.length then
      match scanStep line word LPS s with
      | .error e => .error e
      | .ok (.found i) => .ok i
      | .ok (.next s') => scanLoop line word LPS fuel s'
    else .ok (-1)

/-- `WordSearch(line, word)`: index of the first occurrence of `word` in
`line`, or `-1`. -/
def WordSearch (line word : List Char) : Except Fault Int :=
  if word.length > line.length then .ok (-1)
  else if word.length = 0 then .ok 0
  else if word.length = line.length then
    if line = word then .ok 0 else .ok (-1)
  else
    match buildLPS word with
    | .error e => .error e
    | .ok LPS => scanLoop line word LPS (2 * line.length) ⟨0, 0⟩

/-! ## The line buffer of `main` -/

/-- The newline character. -/
def newline : Char := Char.ofNat 10

/-- The NUL character that terminates a C string. -/
def NUL : Char := Char.ofNat 0

/-- One slot `buffer[i]` of the text buffer: `none` while the block obtained
from `malloc` has never been written (its contents are indeterminate),
`some s` when it holds the C string `s`. -/
abbrev Slot := Option (List Char)

/-- The variables of `main` that make up the editor: the two dimensions read
at start-up, the array `buffer` of allocated slots and the line count. -/
structure Editor where
  max_length : Int
  max_strings : Int
  buffer : List Slot
  num_strings : Int
  deriving DecidableEq

/-- Undefined memory behaviour that a menu case can run into. -/
inductive MemoryFault
  | outOfBounds
  | uninitialisedRead
  deriving DecidableEq

/-- The messages printed by menu cases 1, 2 and 3. -/
inductive Message
  | bufferOverflow
  | inputError
  | textEntered
  | bufferUnderflow
  | nothingStored (line_num : Int)
  | lineDeleted (line_num : Int)
  | bufferEmpty
  | wordNotFound
  | wordFound (position : Int)
  deriving DecidableEq

/-- The pointer `buffer[i]`, for an `int` index: `none` outside the array. -/
def slotAt (buffer : List Slot) (i : Int) : Option Slot :=
  if 0 ≤ i then buffer[i.toNat]? else none

/-- Replace the contents of `buffer[i]`: `none` outside the array. -/
def setSlot (buffer : List Slot) (i : Int) (s : Slot) : Option (List Slot) :=
  if 0 ≤ i ∧ i < buffer.length then some (buffer.set i.toNat s) else none

/-- Read the C string held in `buffer[i]`. -/
def readSlot (buffer : List Slot) (i : Int) : Except MemoryFault (List Char) :=
  match slotAt buffer i with
  | none => .error .outOfBounds
  | some none => .error .uninitialisedRead
  | some (some s) => .ok s

/-- `strcpy(buffer[dst], buffer[src])`. -/
def strcpySlot (buffer : List Slot) (dst src : Int) : Except MemoryFault (List Slot) :=
  match readSlot buffer src with
  | .error f => .error f
  | .ok s =>
    match setSlot buffer dst (some s) with
    | none => .error .outOfBounds
    | some buffer' => .ok buffer'

/-- The C string held by an array of bytes: the bytes before the first NUL. -/
def cstring (bytes : List Char) : List Char :=
  bytes.takeWhile (fun c => c ≠ NUL)

/-- The effect of `text[strcspn(text, "\n")] = 0` on the C string `text`:
it is cut at its first newline. -/
def stripNewline (text : List Char) : List Char :=
  text.takeWhile (fun c => c ≠ newline)

/-- Characters taken from a stream by `fgets` when at most `k` may be stored:
reading stops after a newline, at the end of the stream, or after `k`
characters. The result is what was read and what is left of the stream. -/
def fgetsChars : Nat → List Char → List Char × List Char
  | 0, stream => ([], stream)
  | _ + 1, [] => ([], [])
  | k + 1, c :: stream =>
    if c = newline then ([c], stream)
    else (c :: (fgetsChars k stream).1, (fgetsChars k stream).2)

/-- The library call `fgets(buf, n, stream)`: `none` is the NULL result
(nothing could be read), otherwise the bytes stored in `buf` before the
terminating NUL, and the rest of the stream. With `n = 1` the empty string
is stored and nothing is read. -/
def fgets (n : Int) (stream : List Char) : Option (List Char × List Char) :=
  if n ≤ 0 then none
  else if n = 1 then some ([], stream)
  else
    match stream with
    | [] => none
    | _ :: _ => some (fgetsChars (n - 1).toNat stream)

/-- Menu case 1 (`TextEditor.c`, lines 158-185): insert a text line read from
`stdin`. Returns the message printed, the editor and the rest of `stdin`. -/
def insertCase (e : Editor) (stdin : List Char) :
    Except MemoryFault (Message × Editor × List Char) :=
  let num_strings := e.num_strings + 1
  if num_strings > e.max_strings then
    .ok (.bufferOverflow, ⟨e.max_length, e.max_strings, e.buffer, num_strings - 1⟩, stdin)
  else
    match fgets e.max_length stdin with
    | none => .ok (.inputError, ⟨e.max_length, e.max_strings, e.buffer, num_strings⟩, stdin)
    | some (bytes, rest) =>
      let text := stripNewline (cstring bytes)
      match setSlot e.buffer (num_strings - 1) (some text) with
      | none => .error .outOfBounds
      | some buffer' =>
        .ok (.textEntered, ⟨e.max_length, e.max_strings, buffer', num_strings⟩, rest)

/-- The loop `for (int i = line_num; i < num_strings; i++)
strcpy(buffer[i - 1], buffer[i])` of case 2, given the number of iterations
left and the current `i`. -/
def shiftLoop : Nat → Int → List Slot → Except MemoryFault (List Slot)
  | 0, _, buffer => .ok buffer
  | count + 1, i, buffer =>
    match strcpySlot buffer (i - 1) i with
    | .error f => .error f
    | .ok buffer' => shiftLoop count (i + 1) buffer'

/-- Menu case 2 (`TextEditor.c`, lines 187-219): delete the line whose number
`line_num` was read by `scanf`. The last slot is freed and allocated anew,
which leaves its contents indeterminate. -/
def deleteCase (e : Editor) (line_num : Int) : Except MemoryFault (Message × Editor) :=
  if e.num_strings = 0 then .ok (.bufferUnderflow, e)
  else if line_num > e.num_strings ∨ line_num < 0 then .ok (.nothingStored line_num, e)
  else
    match shiftLoop (e.num_strings - line_num).toNat line_num e.buffer with
    | .error f => .error f
    | .ok shifted =>
      match setSlot shifted (e.num_strings - 1) none with
      | none => .error .outOfBounds
      | some buffer' =>
        .ok (.lineDeleted line_num,
          ⟨e.max_length, e.max_strings, buffer', e.num_strings - 1⟩)

/-- The loop of case 4: `fputs(buffer[i], fptr); fputs("\n", fptr)` for
`i = 0 .. num_strings - 1`, accumulating what is written to the file. -/
def saveLoop (buffer : List Slot) : Nat → Int → List Char → Except MemoryFault (List Char)
  | 0, _, written => .ok written
  | count + 1, i, written =>
    match readSlot buffer i with
    | .error f => .error f
    | .ok s => saveLoop buffer count (i + 1) (written ++ s ++ [newline])

/-- Menu case 4 (`TextEditor.c`, lines 255-281) once `fopen` has succeeded:
the contents written to `TextFile.txt`. The branch taken when the file
cannot be opened ends the program and is not part of this function. -/
def saveCase (e : Editor) : Except MemoryFault (List Char) :=
  saveLoop e.buffer e.num_strings.toNat 0 []

/-- The loop of case 5: for `i = 0 .. num_strings - 1`, `fgets` into
`buffer[i]` (whose result is not checked: on NULL the slot keeps its
contents) and cut `buffer[i]` at its first newline. -/
def loadLoop (max_length : Int) :
    Nat → Int → List Slot → List Char → Except MemoryFault (List Slot × List Char)
  | 0, _, buffer, file => .ok (buffer, file)
  | count + 1, i, buffer, file =>
    match slotAt buffer i with
    | none => .error .outOfBounds
    | some old =>
      let read : Slot × List Char :=
        match fgets max_length file with
        | none => (old, file)
        | some (bytes, rest) => (some (cstring bytes), rest)
      match read.1 with
      | none => .error .uninitialisedRead
      | some s =>
        match setSlot buffer i (some (stripNewline s)) with
        | none => .error .outOfBounds
        | some buffer' => loadLoop max_length count (i + 1) buffer' read.2

/-- Menu case 5 (`TextEditor.c`, lines 283-313) once `fopen` has succeeded on
a file with the given contents: the editor after the read loop. The line
count is not assigned by this case. -/
def loadCase (e : Editor) (file : List Char) : Except MemoryFault Editor :=
  match loadLoop e.max_length e.num_strings.toNat 0 e.buffer file with
  | .error f => .error f
  | .ok (buffer', _) => .ok ⟨e.max_length, e.max_strings, buffer', e.num_strings⟩

/-- The editor right after start-up: `max_strings` freshly allocated slots
and no line. -/
def freshEditor (max_length max_strings : Int) : Editor :=
  ⟨max_length, max_strings, List.replicate max_strings.toNat none, 0⟩

/-- A fault of a menu case: undefined memory behaviour, or a fault inside
`WordSearch`. -/
inductive CaseFault
  | memory (f : MemoryFault)
  | search (f : Fault)
  deriving DecidableEq

/-- Menu case 3 (`TextEditor.c`, lines 221-253): search a word in a line.
`line_num` is the number stored by `scanf` and `stdin` the input that follows
it; none of it is read when the buffer is empty. `getchar()` takes one
character, `fgets` reads the word, and `WordSearch` runs on
`buffer[line_num - 1]`. Returns the message printed and the rest of `stdin`;
the editor is not modified. -/
def searchCase (e : Editor) (line_num : Int) (stdin : List Char) :
    Except CaseFault (Message × List Char) :=
  if e.num_strings = 0 then .ok (.bufferEmpty, stdin)
  else
    match fgets e.max_length (stdin.drop 1) with
    | none => .ok (.inputError, stdin.drop 1)
    | some (bytes, rest) =>
      match readSlot e.buffer (line_num - 1) with
      | .error f => .error (.memory f)
      | .ok line =>
        match WordSearch line (stripNewline (cstring bytes)) with
        | .error f => .error (.search f)
        | .ok res =>
          if res = -1 then .ok (.wordNotFound, rest)
          else .ok (.wordFound (res + 1), rest)

/-- Menu case 2 together with its `scanf(" %d", &line_num)`: the emptiness
test comes first, and only then is the line number read from `stdin`. The
library call is a parameter: it gives the number stored in `line_num` and the
rest of the input. -/
def deleteCaseStdin (scanfInt : List Char → Int × List Char) (e : Editor)
    (stdin : List Char) : Except MemoryFault (Message × Editor × List Char) :=
  if e.num_strings = 0 then .ok (.bufferUnderflow, e, stdin)
  else
    match deleteCase e (scanfInt stdin).1 with
    | .error f => .error f
    | .ok (m, e') => .ok (m, e', (scanfInt stdin).2)

/-- One turn of the menu with what it reads: the operation chosen and its
input. -/
inductive Op
  | insert (stdin : List Char)
  | delete (line_num : Int)
  | search (line_num : Int) (stdin : List Char)
  | save
  | load (file : List Char)
  deriving DecidableEq

/-- The editor after one menu operation. -/
def step (e : Editor) : Op → Except CaseFault Editor
  | .insert stdin =>
    match insertCase e stdin with
    | .error f => .error (.memory f)
    | .ok (_, e', _) => .ok e'
  | .delete line_num =>
    match deleteCase e line_num with
    | .error f => .error (.memory f)
    | .ok (_, e') => .ok e'
  | .search line_num stdin =>
    match searchCase e line_num stdin with
    | .error f => .error f
    | .ok _ => .ok e
  | .save =>
    match saveCase e with
    | .error f => .error (.memory f)
    | .ok _ => .ok e
  | .load file =>
    match loadCase e file with
    | .error f => .error (.memory f)
    | .ok e' => .ok e'

/-- The editor after a sequence of menu operations (the `do ... while` loop
of `main`). -/
def run (e : Editor) : List Op → Except CaseFault Editor
  | [] => .ok e
  | op :: ops =>
    match step e op with
    | .error f => .error f
    | .ok e' => run e' ops

/-- The value of `num_strings` after one menu operation, following the
statements of `main` that test or assign it: `num_strings++` and the
overflow test with its `num_strings--` in case 1 (lines 160-167, before and
whatever the outcome of `fgets`), the emptiness test, the validation of
`line_num` and `num_strings--` in case 2 (lines 189, 199, 214); cases 3, 4
and 5 never assign it. None of these statements looks at the contents of
`buffer`, so the value is defined also for an operation that reads a slot it
should not read. -/
def countStep (max_strings num_strings : Int) : Op → Int
  | .insert _ =>
    if num_strings + 1 > max_strings then num_strings + 1 - 1 else num_strings + 1
  | .delete line_num =>
    if num_strings = 0 then num_strings
    else if line_num > num_strings ∨ line_num < 0 then num_strings
    else num_strings - 1
  | .search _ _ => num_strings
  | .save => num_strings
  | .load _ => num_strings

/-- The value of `num_strings` after a sequence of menu operations. -/
def countRun (max_strings : Int) : Int → List Op → Int
  | num_strings, [] => num_strings
  | num_strings, op :: ops =>
    countRun max_strings (countStep max_strings num_strings op) ops

/-- Number of iterations of `while (suffixPointer < word_length)` executed
from state `s`, counted up to `fuel`. -/
def tableLoopIterations (word : List Char) : Nat → TableState → Nat
  | 0, _ => 0
  | fuel + 1, s =>
    if s.suffixPointer < word.length then
      match tableStep word s with
      | .error _ => 1
      | .ok s' => 1 + tableLoopIterations word fuel s'
    else 0

/-- Number of iterations of `while (linePointer < line_length)` executed from
state `s`, counted up to `fuel`. -/
def scanLoopIterations (line word : List Char) (LPS : List Nat) : Nat → ScanState → Nat
  | 0, _ => 0
  | fuel + 1, s =>
    if s.linePointer < line.length then
      match scanStep line word LPS s with
      | .error _ => 1
      | .ok (.found _) => 1
      | .ok (.next s') => 1 + scanLoopIterations line word LPS fuel s'
    else 0

/-- The contents of a text file made of the given lines, each followed by a
newline. -/
def streamOfLines : List (List Char) → List Char
  | [] => []
  | l :: ls => l ++ newline :: streamOfLines ls

/-! ## Specification vocabulary for the search -/

/-- `word` occurs in `line` at the 0-based position `p`, as a contiguous
substring. -/
def OccursAt (line word : List Char) (p : Nat) : Prop :=
  word <+: line.drop p

instance (line word : List Char) (p : Nat) : Decidable (OccursAt line word p) :=
  inferInstanceAs (Decidable (word <+: line.drop p))

/-- Index form of an occurrence: the characters of `word` are found in
`line` from position `p` on. -/
def MatchAt (line word : List Char) (p : Nat) : Prop :=
  ∀ t, t < word.length → (line)[p + t]? = word[t]?

/-- `k` is the length of a proper prefix of `word[0..j)` that is also a
suffix of `word[0..j)`. -/
def Border (word : List Char) (j k : Nat) : Prop :=
  k < j ∧ ∀ t, t < k → word[t]? = word[j - k + t]?

/-- `v` is the length of the longest proper prefix of `word[0..i]` that is
also a suffix of it. -/
def IsLPS (word : List Char) (i v : Nat) : Prop :=
  Border word (i + 1) v ∧ ∀ k, Border word (i + 1) k → k ≤ v

/-- Every entry of the table is the longest prefix-suffix length. -/
def TableOK (word : List Char) (LPS : List Nat) : Prop :=
  ∀ i, i < word.length → ∃ v, LPS[i]? = some v ∧ IsLPS word i v

/-- Invariant of the table-building loop. -/
structure TableInv (word : List Char) (s : TableState) : Prop where
  len : s.LPS.length = word.length
  sp_pos : 1 ≤ s.suffixPointer
  sp_le : s.suffixPointer ≤ word.length
  border : Border word s.suffixPointer s.prefixPointer
  maxi : ∀ k, Border word s.suffixPointer k → word[k]? = word[s.suffixPointer]? →
    k ≤ s.prefixPointer
  filled : ∀ i, i < s.suffixPointer → ∃ v, s.LPS[i]? = some v ∧ IsLPS word i v
  zero : ∀ i, s.suffixPointer ≤ i → i < word.length → s.LPS[i]? = some 0

/-- Invariant of the scanning loop. -/
structure ScanInv (line word : List Char) (s : ScanState) : Prop where
  wp_lt : s.wordPointer < word.length
  wp_le : s.wordPointer ≤ s.linePointer
  lp_le : s.linePointer ≤ line.length
  matched : ∀ t, t < s.wordPointer →
    (line)[s.linePointer - s.wordPointer + t]? = word[t]?
  earlier : ∀ q, q < s.linePointer - s.wordPointer → ¬ MatchAt line word q

/-- States in which the table-building loop tests its condition: the state
before the loop, and the state after each iteration of the body. -/
inductive TableReachable (word : List Char) : TableState → Prop
  | start : TableReachable word ⟨0, 1, List.replicate word.length 0⟩
  | iterate {s s' : TableState} : TableReachable word s →
      s.suffixPointer < word.length → tableStep word s = .ok s' →
      TableReachable word s'

/-- States in which the scanning loop tests its condition. -/
inductive ScanReachable (line word : List Char) (LPS : List Nat) : ScanState → Prop
  | start : ScanReachable line word LPS ⟨0, 0⟩
  | iterate {s s' : ScanState} : ScanReachable line word LPS s →
      s.linePointer < line.length → scanStep line word LPS s = .ok (.next s') →
      ScanReachable line word LPS s'

/-! ## Lemmas on occurrences and borders -/

theorem occursAt_iff_matchAt (line word : List Char) (p : Nat) :
    OccursAt line word p ↔ MatchAt line word p := by
  unfold OccursAt MatchAt
  rw [List.isPrefix_iff]
  constructor
  · intro h t ht
    have := h t ht
    rw [List.getElem?_drop] at this
    rw [this, List.getElem?_eq_getElem ht]
  · intro h t ht
    have := h t ht
    rw [List.getElem?_drop, this, List.getElem?_eq_getElem ht]

theorem matchAt_bound {line word : List Char} {p : Nat} (hm : 0 < word.length)
    (h : MatchAt line word p) : p + word.length ≤ line.length := by
  have := h (word.length - 1) (by omega)
  rw [List.getElem?_eq_getElem (show word.length - 1 < word.length by omega)] at this
  have hlt := (List.getElem?_eq_some.mp this).1
  omega

theorem border_zero (word : List Char) {j : Nat} (hj : 0 < j) : Border word j 0 :=
  ⟨hj, fun t ht => absurd ht (Nat.not_lt_zero t)⟩

theorem border_extend {word : List Char} {sp pp : Nat} (h : Border word sp pp)
    (hc : word[sp]? = word[pp]?) : Border word (sp + 1) (pp + 1) := by
  obtain ⟨h1, h2⟩ := h
  refine ⟨by omega, fun t ht => ?_⟩
  by_cases htp : t < pp
  · have := h2 t htp
    have e : sp + 1 - (pp + 1) + t = sp - pp + t := by omega
    rw [e]; exact this
  · have e1 : t = pp := by omega
    have e : sp + 1 - (pp + 1) + t = sp := by omega
    rw [e, e1]; exact hc.symm

theorem border_shrink {word : List Char} {sp k : Nat} (h : Border word (sp + 1) k)
    (hk : 0 < k) : Border word sp (k - 1) ∧ word[k - 1]? = word[sp]? := by
  obtain ⟨h1, h2⟩ := h
  refine ⟨⟨by omega, fun t ht => ?_⟩, ?_⟩
  · have := h2 t (by omega)
    have e : sp + 1 - k + t = sp - (k - 1) + t := by omega
    rw [e] at this; exact this
  · have := h2 (k - 1) (by omega)
    have e : sp + 1 - k + (k - 1) = sp := by omega
    rw [e] at this; exact this

theorem border_trans {word : List Char} {j k k' : Nat} (h : Border word j k)
    (h' : Border word k k') : Border word j k' := by
  obtain ⟨h1, h2⟩ := h
  obtain ⟨h3, h4⟩ := h'
  refine ⟨by omega, fun t ht => ?_⟩
  have a := h4 t ht
  have b := h2 (k - k' + t) (by omega)
  have e : j - k + (k - k' + t) = j - k' + t := by omega
  rw [e] at b
  rw [a, b]

theorem border_of_lt {word : List Char} {j k k' : Nat} (h : Border word j k)
    (h' : Border word j k') (hlt : k' < k) : Border word k k' := by
  obtain ⟨h1, h2⟩ := h
  obtain ⟨h3, h4⟩ := h'
  refine ⟨hlt, fun t ht => ?_⟩
  have a := h4 t ht
  have b := h2 (k - k' + t) (by omega)
  have e : j - k + (k - k' + t) = j - k' + t := by omega
  rw [e] at b
  rw [a, b]

/-! ## The table-building loop -/

theorem tableInv_init (word : List Char) (hm : 0 < word.length) :
    TableInv word ⟨0, 1, List.replicate word.length 0⟩ := by
  refine ⟨by simp, by simp, by simpa using hm, border_zero word Nat.one_pos, ?_, ?_, ?_⟩
  · intro k hk _
    have := hk.1
    simp only at this ⊢
    omega
  · intro i hi
    have hi0 : i = 0 := by simp only at hi; omega
    subst hi0
    refine ⟨0, ?_, border_zero word Nat.one_pos, fun k hk => ?_⟩
    · simp [List.getElem?_replicate, hm]
    · have := hk.1; omega
  · intro i _ hi
    simp [List.getElem?_replicate, hi]

theorem tableStep_spec {word : List Char} {s : TableState} (h : TableInv word s)
    (hlt : s.suffixPointer < word.length) :
    ∃ s', tableStep word s = .ok s' ∧ TableInv word s' ∧
      2 * s.suffixPointer + s'.prefixPointer + 1 ≤
        2 * s'.suffixPointer + s.prefixPointer := by
  obtain ⟨pp, sp, L⟩ := s
  obtain ⟨hlen, hsp1, hsple, hbord, hmax, hfill, hzero⟩ := h
  simp only at hlen hsp1 hsple hbord hmax hfill hzero hlt
  have hpp : pp < sp := hbord.1
  have hpm : pp < word.length := by omega
  have ha : word[sp]? = some word[sp] := List.getElem?_eq_getElem hlt
  have hb : word[pp]? = some word[pp] := List.getElem?_eq_getElem hpm
  by_cases hab : word[sp] = word[pp]
  · have hc : word[sp]? = word[pp]? := by rw [ha, hb, hab]
    have hnew : Border word (sp + 1) (pp + 1) := border_extend hbord hc
    have hnewmax : ∀ k, Border word (sp + 1) k → k ≤ pp + 1 := by
      intro k hk
      by_cases hk0 : k = 0
      · omega
      · obtain ⟨h1, h2⟩ := border_shrink hk (by omega)
        have := hmax (k - 1) h1 h2
        omega
    refine ⟨⟨pp + 1, sp + 1, L.set sp (pp + 1)⟩, ?_, ?_, ?_⟩
    · simp [tableStep, ha, hb, hab, hlen, hlt]
    · refine ⟨by simpa using hlen, by simp, by simpa using hlt, hnew, ?_, ?_, ?_⟩
      · intro k hk _
        exact hnewmax k hk
      · intro i hi
        simp only at hi ⊢
        by_cases his : i = sp
        · subst his
          refine ⟨pp + 1, ?_, hnew, hnewmax⟩
          rw [List.getElem?_set_self (by omega)]
        · obtain ⟨v, hv, hvl⟩ := hfill i (by omega)
          refine ⟨v, ?_, hvl⟩
          rw [List.getElem?_set_ne (Ne.symm his)]
          exact hv
      · intro i hi1 hi2
        simp only at hi1 ⊢
        rw [List.getElem?_set_ne (by omega)]
        exact hzero i (by omega) hi2
    · simp only
      omega
  · by_cases hp0 : pp = 0
    · subst hp0
      have hnone : ∀ k, Border word (sp + 1) k → k ≤ 0 := by
        intro k hk
        by_contra hk0
        obtain ⟨h1, h2⟩ := border_shrink hk (by omega)
        have := hmax (k - 1) h1 h2
        have hk1 : k - 1 = 0 := by omega
        rw [hk1, ha, hb] at h2
        exact hab (Option.some.inj h2).symm
      refine ⟨⟨0, sp + 1, L⟩, ?_, ?_, ?_⟩
      · simp [tableStep, ha, hb, hab]
      · refine ⟨hlen, by simp, hlt, border_zero word (Nat.succ_pos sp), ?_, ?_, ?_⟩
        · intro k hk _
          exact hnone k hk
        · intro i hi
          simp only at hi ⊢
          by_cases his : i = sp
          · subst his
            exact ⟨0, hzero i le_rfl hlt, border_zero word (Nat.succ_pos i), hnone⟩
          · exact hfill i (by omega)
        · intro i hi1 hi2
          simp only at hi1 ⊢
          exact hzero i (by omega) hi2
      · simp only
        omega
    · obtain ⟨v, hv, hvb, hvmax⟩ := hfill (pp - 1) (by omega)
      have e : pp - 1 + 1 = pp := by omega
      rw [e] at hvb hvmax
      refine ⟨⟨v, sp, L⟩, ?_, ?_, ?_⟩
      · simp [tableStep, ha, hb, hab, hp0, hv]
      · refine ⟨hlen, hsp1, hsple, border_trans hbord hvb, ?_, hfill, hzero⟩
        intro k hk hkc
        simp only at hk hkc ⊢
        have hkle := hmax k hk hkc
        have hne : k ≠ pp := by
          intro hkp
          subst hkp
          rw [ha, hb] at hkc
          exact hab (Option.some.inj hkc).symm
        exact hvmax k (border_of_lt hbord hk (by omega))
      · have := hvb.1
        simp only
        omega

theorem tableLoop_spec {word : List Char} (fuel : Nat) (s : TableState)
    (h : TableInv word s)
    (hf : 2 * word.length + s.prefixPointer ≤ fuel + 2 * s.suffixPointer) :
    ∃ s', tableLoop word fuel s = .ok s' ∧ TableInv word s' ∧
      s'.suffixPointer = word.length := by
  induction fuel generalizing s with
  | zero =>
    have h1 := h.border.1
    have h2 := h.sp_le
    have hsp : s.suffixPointer = word.length := by omega
    exact ⟨s, by simp [tableLoop, hsp], h, hsp⟩
  | succ fuel ih =>
    by_cases hlt : s.suffixPointer < word.length
    · obtain ⟨s', hs', hinv, hmeas⟩ := tableStep_spec h hlt
      obtain ⟨s'', hs'', hinv', hdone⟩ := ih s' hinv (by omega)
      exact ⟨s'', by simp [tableLoop, hlt, hs', hs''], hinv', hdone⟩
    · have h2 := h.sp_le
      exact ⟨s, by simp [tableLoop, hlt], h, by omega⟩

theorem buildLPS_spec (word : List Char) (hm : 0 < word.length) :
    ∃ LPS, buildLPS word = .ok LPS ∧ LPS.length = word.length ∧ TableOK word LPS := by
  obtain ⟨s, hs, hinv, hdone⟩ :=
    tableLoop_spec (2 * word.length) ⟨0, 1, List.replicate word.length 0⟩
      (tableInv_init word hm) (by simp only; omega)
  refine ⟨s.LPS, by simp [buildLPS, hs], hinv.len, fun i hi => ?_⟩
  exact hinv.filled i (by omega)

/-! ## The scanning loop -/

theorem scanInv_init (line word : List Char) (hm : 0 < word.length) :
    ScanInv line word ⟨0, 0⟩ :=
  ⟨hm, Nat.le_refl 0, Nat.zero_le _, fun t ht => absurd ht (Nat.not_lt_zero t),
    fun q hq => absurd hq (Nat.not_lt_zero q)⟩

theorem scanInv_exit {line word : List Char} {s : ScanState} (h : ScanInv line word s)
    (hlp : ¬ s.linePointer < line.length) : ∀ q, ¬ MatchAt line word q := by
  intro q hq
  have h1 := h.wp_lt
  have h2 := h.wp_le
  have h3 := h.lp_le
  have hb := matchAt_bound (by omega) hq
  exact h.earlier q (by omega) hq

theorem scanStep_spec {line word : List Char} {LPS : List Nat} {s : ScanState}
    (h : ScanInv line word s) (hT : TableOK word LPS)
    (hlt : s.linePointer < line.length) :
    (∃ q : Nat, scanStep line word LPS s = .ok (.found (q : Int)) ∧
        MatchAt line word q ∧ ∀ q', q' < q → ¬ MatchAt line word q') ∨
    (∃ s', scanStep line word LPS s = .ok (.next s') ∧ ScanInv line word s' ∧
        2 * s.linePointer + s'.wordPointer + 1 ≤ 2 * s'.linePointer + s.wordPointer) := by
  obtain ⟨wp, lp⟩ := s
  obtain ⟨hwm, hwl, hln, hmat, hearly⟩ := h
  simp only at hwm hwl hln hmat hearly hlt
  have ha : word[wp]? = some word[wp] := List.getElem?_eq_getElem hwm
  have hb : (line)[lp]? = some (line)[lp] := List.getElem?_eq_getElem hlt
  have hcur : ∀ t, t < wp + 1 → word[wp] = (line)[lp] →
      (line)[lp - wp + t]? = word[t]? := by
    intro t ht hab
    by_cases htw : t < wp
    · exact hmat t htw
    · have e1 : t = wp := by omega
      have e : lp - wp + t = lp := by omega
      rw [e, e1, ha, hb, hab]
  by_cases hab : word[wp] = (line)[lp]
  · by_cases hfin : wp + 1 = word.length
    · left
      refine ⟨lp - wp, ?_, ?_, hearly⟩
      · have e : Int.ofNat (lp + 1) - Int.ofNat (wp + 1) = ((lp - wp : Nat) : Int) := by
          simp only [Int.ofNat_eq_coe]
          omega
        have hs : scanStep line word LPS ⟨wp, lp⟩ =
            .ok (.found (Int.ofNat (lp + 1) - Int.ofNat (wp + 1))) := by
          simp [scanStep, ha, hb, hab, hfin]
        rw [hs, e]
      · intro t ht
        exact hcur t (by omega) hab
    · right
      refine ⟨⟨wp + 1, lp + 1⟩, ?_, ?_, ?_⟩
      · simp [scanStep, ha, hb, hab, hfin]
      · refine ⟨by simp only; omega, by simp only; omega, by simp only; omega, ?_, ?_⟩
        · intro t ht
          simp only at ht ⊢
          have e : lp + 1 - (wp + 1) + t = lp - wp + t := by omega
          rw [e]
          exact hcur t ht hab
        · intro q hq
          simp only at hq
          exact hearly q (by omega)
      · simp only
        omega
  · right
    have hhere : ¬ MatchAt line word (lp - wp) := by
      intro hq
      have := hq wp hwm
      have e : lp - wp + wp = lp := by omega
      rw [e, ha, hb] at this
      exact hab (Option.some.inj this).symm
    by_cases hw0 : wp = 0
    · subst hw0
      refine ⟨⟨0, lp + 1⟩, ?_, ?_, ?_⟩
      · simp [scanStep, ha, hb, hab]
      · refine ⟨hwm, Nat.zero_le _, by simp only; omega,
          fun t ht => absurd ht (Nat.not_lt_zero t), ?_⟩
        intro q hq
        simp only at hq
        by_cases hql : q < lp
        · exact hearly q (by omega)
        · have e : q = lp - 0 := by omega
          rw [e]
          exact hhere
      · simp only
        omega
    · obtain ⟨v, hv, hvb, hvmax⟩ := hT (wp - 1) (by omega)
      have e : wp - 1 + 1 = wp := by omega
      rw [e] at hvb hvmax
      have hvw : v < wp := hvb.1
      refine ⟨⟨v, lp⟩, ?_, ?_, ?_⟩
      · simp [scanStep, ha, hb, hab, hw0, hv]
      · refine ⟨by simp only; omega, by simp only; omega, hln, ?_, ?_⟩
        · intro t ht
          simp only at ht ⊢
          have b1 := hvb.2 t ht
          have b2 := hmat (wp - v + t) (by omega)
          have e2 : lp - wp + (wp - v + t) = lp - v + t := by omega
          rw [e2] at b2
          rw [b2, b1]
        · intro q hq hmq
          simp only at hq
          by_cases hq1 : q < lp - wp
          · exact hearly q hq1 hmq
          · by_cases hq2 : q = lp - wp
            · rw [hq2] at hmq
              exact hhere hmq
            · have hk : Border word wp (lp - q) := by
                refine ⟨by omega, fun t ht => ?_⟩
                have c1 := hmq t (by omega)
                have c2 := hmat (wp - (lp - q) + t) (by omega)
                have e3 : lp - wp + (wp - (lp - q) + t) = q + t := by omega
                rw [e3] at c2
                rw [← c1, c2]
              have := hvmax (lp - q) hk
              omega
      · simp only
        omega

theorem scanLoop_spec {line word : List Char} {LPS : List Nat} (hT : TableOK word LPS)
    (fuel : Nat) (s : ScanState) (h : ScanInv line word s)
    (hf : 2 * line.length + s.wordPointer ≤ fuel + 2 * s.linePointer) :
    (∃ q : Nat, scanLoop line word LPS fuel s = .ok (q : Int) ∧
        MatchAt line word q ∧ ∀ q', q' < q → ¬ MatchAt line word q') ∨
    (scanLoop line word LPS fuel s = .ok (-1) ∧ ∀ q, ¬ MatchAt line word q) := by
  induction fuel generalizing s with
  | zero =>
    have h3 := h.lp_le
    have hlp : ¬ s.linePointer < line.length := by omega
    exact Or.inr ⟨by simp [scanLoop, hlp], scanInv_exit h hlp⟩
  | succ fuel ih =>
    by_cases hlt : s.linePointer < line.length
    · rcases scanStep_spec h hT hlt with ⟨q, hq, hm, hfirst⟩ | ⟨s', hs', hinv, hmeas⟩
      · exact Or.inl ⟨q, by simp [scanLoop, hlt, hq], hm, hfirst⟩
      · rcases ih s' hinv (by omega) with ⟨q, hq, hm, hfirst⟩ | ⟨hq, hnone⟩
        · exact Or.inl ⟨q, by simp [scanLoop, hlt, hs', hq], hm, hfirst⟩
        · exact Or.inr ⟨by simp [scanLoop, hlt, hs', hq], hnone⟩
    · exact Or.inr ⟨by simp [scanLoop, hlt], scanInv_exit h hlt⟩

/-- Functional correctness of `WordSearch`: it returns the first position at
which `word` occurs in `line`, or `-1` when there is none. -/
theorem wordSearch_spec (line word : List Char) :
    (∃ q : Nat, WordSearch line word = .ok (q : Int) ∧ OccursAt line word q ∧
        ∀ q', q' < q → ¬ OccursAt line word q') ∨
    (WordSearch line word = .ok (-1) ∧ ∀ q, ¬ OccursAt line word q) := by
  by_cases h1 : word.length > line.length
  · right
    refine ⟨by simp [WordSearch, h1], fun q hq => ?_⟩
    have := hq.length_le
    simp only [List.length_drop] at this
    omega
  · by_cases h2 : word.length = 0
    · left
      have hw : word = [] := List.length_eq_zero.mp h2
      refine ⟨0, by simp [WordSearch, h2], ?_, fun q' hq' => absurd hq' (Nat.not_lt_zero q')⟩
      rw [hw]
      exact List.nil_prefix
    · by_cases h3 : word.length = line.length
      · by_cases h4 : line = word
        · left
          refine ⟨0, by simp [WordSearch, h4], ?_,
            fun q' hq' => absurd hq' (Nat.not_lt_zero q')⟩
          rw [h4]
          exact List.prefix_refl _
        · right
          have hl : line ≠ [] := by
            intro hl
            rw [hl] at h3
            exact h2 h3
          refine ⟨by simp [WordSearch, h2, h3, h4, hl], fun q hq => ?_⟩
          have hle := hq.length_le
          simp only [List.length_drop] at hle
          have hq0 : q = 0 := by omega
          subst hq0
          rw [OccursAt, List.drop_zero] at hq
          exact h4 (hq.eq_of_length h3).symm
      · obtain ⟨LPS, hL, _, hT⟩ := buildLPS_spec word (by omega)
        have hW : WordSearch line word = scanLoop line word LPS (2 * line.length) ⟨0, 0⟩ := by
          simp [WordSearch, h1, h2, h3, hL]
        rcases scanLoop_spec hT (2 * line.length) ⟨0, 0⟩ (scanInv_init line word (by omega))
          (by simp only; omega) with ⟨q, hq, hm, hfirst⟩ | ⟨hq, hnone⟩
        · left
          refine ⟨q, by rw [hW, hq], (occursAt_iff_matchAt _ _ _).mpr hm, fun q' hq' ho => ?_⟩
          exact hfirst q' hq' ((occursAt_iff_matchAt _ _ _).mp ho)
        · right
          refine ⟨by rw [hW, hq], fun q ho => ?_⟩
          exact hnone q ((occursAt_iff_matchAt _ _ _).mp ho)

theorem occursAt_isInfix {line word : List Char} {p : Nat} (h : OccursAt line word p) :
    word <:+: line :=
  List.IsInfix.trans (List.IsPrefix.isInfix h) (List.IsSuffix.isInfix (List.drop_suffix p line))

/-! ## The search claims -/

/-- C1: whenever `word` occurs in `line` at some position `p`, `WordSearch`
returns the smallest index `p'` at which `word` occurs in `line`, and
`p' ≤ p`; in particular searching "ABABCABAB" in "ABABDABACDABABCABAB"
returns 10. -/
theorem wordSearch_first_occurrence :
    (∀ (line word : List Char) (p : Nat), OccursAt line word p →
      ∃ p' : Nat, WordSearch line word = .ok (p' : Int) ∧ p' ≤ p ∧
        OccursAt line word p' ∧ ∀ q, OccursAt line word q → p' ≤ q) ∧
    WordSearch "ABABDABACDABABCABAB".toList "ABABCABAB".toList = .ok 10 := by
  refine ⟨fun line word p hp => ?_, by decide⟩
  rcases wordSearch_spec line word with ⟨q, hq, ho, hfirst⟩ | ⟨_, hnone⟩
  · refine ⟨q, hq, ?_, ho, fun r hr => ?_⟩
    · exact Nat.le_of_not_lt fun hlt => hfirst p hlt hp
    · exact Nat.le_of_not_lt fun hlt => hfirst r hlt hr
  · exact absurd hp (hnone p)

/-- Witness of C1: "bc" occurs in "abcbc" at position 3, and the search
returns the first occurrence, which is at most 3. -/
theorem wordSearch_first_occurrence_witness :
    OccursAt ['a', 'b', 'c', 'b', 'c'] ['b', 'c'] 3 ∧
    ∃ p' : Nat, WordSearch ['a', 'b', 'c', 'b', 'c'] ['b', 'c'] = .ok (p' : Int) ∧ p' ≤ 3 ∧
      OccursAt ['a', 'b', 'c', 'b', 'c'] ['b', 'c'] p' ∧
      ∀ q, OccursAt ['a', 'b', 'c', 'b', 'c'] ['b', 'c'] q → p' ≤ q :=
  ⟨by decide, wordSearch_first_occurrence.1 _ _ 3 (by decide)⟩

/-- C2: when `word` does not occur anywhere in `line` as a contiguous
substring, `WordSearch` returns the sentinel `-1`. -/
theorem wordSearch_absent (line word : List Char) (h : ¬ word <:+: line) :
    WordSearch line word = .ok (-1) := by
  rcases wordSearch_spec line word with ⟨q, _, ho, _⟩ | ⟨hq, _⟩
  · exact absurd (occursAt_isInfix ho) h
  · exact hq

/-- Witness of C2: "ca" is not a substring of "abcb". -/
theorem wordSearch_absent_witness :
    ¬ ['c', 'a'] <:+: ['a', 'b', 'c', 'b'] ∧
    WordSearch ['a', 'b', 'c', 'b'] ['c', 'a'] = .ok (-1) :=
  ⟨by decide, wordSearch_absent _ _ (by decide)⟩

/-- C3: for every line, the empty one included, `WordSearch(line, "")`
returns 0. -/
theorem wordSearch_empty_word (line : List Char) : WordSearch line [] = .ok 0 := by
  simp [WordSearch]

/-- C4: a word longer than the line is not found: `WordSearch` returns `-1`. -/
theorem wordSearch_longer_word (line word : List Char)
    (h : word.length > line.length) : WordSearch line word = .ok (-1) := by
  simp [WordSearch, h]

/-- Witness of C4: "abc" is longer than "ab". -/
theorem wordSearch_longer_word_witness :
    ['a', 'b', 'c'].length > ['a', 'b'].length ∧
    WordSearch ['a', 'b'] ['a', 'b', 'c'] = .ok (-1) :=
  ⟨by decide, wordSearch_longer_word _ _ (by decide)⟩

/-! ## Lemmas on the buffer primitives -/

theorem slotAt_natCast (buffer : List Slot) (i : Nat) :
    slotAt buffer (i : Int) = buffer[i]? := by
  simp [slotAt]

theorem setSlot_natCast (buffer : List Slot) (i : Nat) (s : Slot)
    (h : i < buffer.length) : setSlot buffer (i : Int) s = some (buffer.set i s) := by
  simp [setSlot, h]

theorem readSlot_natCast {buffer : List Slot} {i : Nat} {s : List Char}
    (h : buffer[i]? = some (some s)) : readSlot buffer (i : Int) = .ok s := by
  simp [readSlot, slotAt_natCast, h]

theorem fgetsChars_line (text tail : List Char) (hnl : newline ∉ text) :
    ∀ k, text.length < k →
      fgetsChars k (text ++ newline :: tail) = (text ++ [newline], tail) := by
  induction text with
  | nil =>
    intro k hk
    obtain ⟨k', rfl⟩ : ∃ k', k = k' + 1 := ⟨k - 1, by simp at hk; omega⟩
    simp [fgetsChars]
  | cons c t ih =>
    intro k hk
    obtain ⟨k', rfl⟩ : ∃ k', k = k' + 1 := ⟨k - 1, by simp at hk; omega⟩
    have hc : c ≠ newline := fun h => hnl (by simp [h])
    have ht : newline ∉ t := fun h => hnl (by simp [h])
    have := ih ht k' (by simp at hk; omega)
    simp [fgetsChars, hc, this]

theorem fgets_line (n : Int) (text tail : List Char) (hnl : newline ∉ text)
    (hlen : (text.length : Int) < n - 1) :
    fgets n (text ++ newline :: tail) = some (text ++ [newline], tail) := by
  have h1 : ¬ n ≤ 0 := by omega
  have h2 : ¬ n = 1 := by omega
  have h3 : fgetsChars (n - 1).toNat (text ++ newline :: tail) = (text ++ [newline], tail) :=
    fgetsChars_line text tail hnl _ (by omega)
  unfold fgets
  rw [if_neg h1, if_neg h2]
  cases text with
  | nil => simpa using h3
  | cons c t => simpa using h3

theorem cstring_eq_self (bytes : List Char) (h : NUL ∉ bytes) : cstring bytes = bytes := by
  induction bytes with
  | nil => rfl
  | cons c t ih =>
    have hc : c ≠ NUL := fun hc => h (by simp [hc])
    have ht : NUL ∉ t := fun ht => h (by simp [ht])
    have := ih ht
    unfold cstring at this ⊢
    rw [List.takeWhile_cons, this]
    exact if_pos (decide_eq_true hc)

theorem stripNewline_line (text tail : List Char) (h : newline ∉ text) :
    stripNewline (text ++ newline :: tail) = text := by
  induction text with
  | nil => simp [stripNewline]
  | cons c t ih =>
    have hc : c ≠ newline := fun hc => h (by simp [hc])
    have ht : newline ∉ t := fun ht => h (by simp [ht])
    have := ih ht
    unfold stripNewline at this ⊢
    rw [List.cons_append, List.takeWhile_cons, this]
    exact if_pos (decide_eq_true hc)

theorem shiftLoop_spec (count : Nat) :
    ∀ (i : Nat) (buffer : List Slot), 1 ≤ i → i + count ≤ buffer.length →
      (∀ j, i ≤ j → j < i + count → ∃ s, buffer[j]? = some (some s)) →
      ∃ buffer', shiftLoop count (i : Int) buffer = .ok buffer' ∧
        buffer'.length = buffer.length ∧
        ∀ j, buffer'[j]? =
          if i - 1 ≤ j ∧ j < i - 1 + count then buffer[j + 1]? else buffer[j]? := by
  induction count with
  | zero =>
    intro i buffer _ _ _
    refine ⟨buffer, rfl, rfl, fun j => ?_⟩
    rw [if_neg (by omega)]
  | succ count ih =>
    intro i buffer hi hlen hinit
    obtain ⟨s, hs⟩ := hinit i (Nat.le_refl i) (by omega)
    have hcast : (i : Int) - 1 = ((i - 1 : Nat) : Int) := by omega
    have hcopy : strcpySlot buffer ((i : Int) - 1) (i : Int) =
        .ok (buffer.set (i - 1) (some s)) := by
      rw [hcast]
      simp [strcpySlot, readSlot_natCast hs, setSlot_natCast buffer (i - 1) (some s) (by omega)]
    have hnext : ∀ j, i + 1 ≤ j → j < i + 1 + count →
        ∃ s', (buffer.set (i - 1) (some s))[j]? = some (some s') := by
      intro j h1 h2
      rw [List.getElem?_set_ne (by omega)]
      exact hinit j (by omega) (by omega)
    obtain ⟨buffer', hrun, hl, hget⟩ :=
      ih (i + 1) (buffer.set (i - 1) (some s)) (by omega) (by simp; omega) hnext
    refine ⟨buffer', ?_, by simpa using hl, fun j => ?_⟩
    · have hcast' : (i : Int) + 1 = ((i + 1 : Nat) : Int) := by omega
      simp only [shiftLoop, hcopy, hcast']
      exact hrun
    · rw [hget j]
      by_cases hj : j = i - 1
      · subst hj
        rw [if_neg (by omega), if_pos (by omega), List.getElem?_set_self (by omega)]
        have e : i - 1 + 1 = i := by omega
        rw [e, hs]
      · by_cases hr : i + 1 - 1 ≤ j ∧ j < i + 1 - 1 + count
        · rw [if_pos hr, if_pos (by omega), List.getElem?_set_ne (by omega)]
        · rw [if_neg hr, if_neg (by omega), List.getElem?_set_ne (by omega)]

/-- The delete case rejects a line number above the line count or below 0
and leaves the editor as it was. -/
theorem deleteCase_rejects (e : Editor) (line_num : Int) (hne : e.num_strings ≠ 0)
    (h : line_num > e.num_strings ∨ line_num < 0) :
    deleteCase e line_num = .ok (.nothingStored line_num, e) := by
  simp [deleteCase, hne, h]

/-! ## The line-buffer claims -/

/-- C5: at line number 0 the delete case does not reject. On a buffer whose
only line is "alpha" the guard `line_num > num_strings || line_num < 0` lets
0 through, and the shift loop starts with `strcpy(buffer[-1], buffer[0])`,
a write outside the array, instead of printing "Nothing stored" and leaving
the editor unchanged. -/
theorem delete_line_zero_not_rejected :
    deleteCase ⟨20, 3, [some ['a', 'l', 'p', 'h', 'a'], none, none], 1⟩ 0 =
      .error .outOfBounds ∧
    deleteCase ⟨20, 3, [some ['a', 'l', 'p', 'h', 'a'], none, none], 1⟩ 0 ≠
      .ok (.nothingStored 0, ⟨20, 3, [some ['a', 'l', 'p', 'h', 'a'], none, none], 1⟩) := by
  decide

/-- C6: on a buffer whose active lines are `lines` (so `activeCount` is
`lines.length`), deleting line `k` with `1 ≤ k ≤ activeCount` succeeds,
makes the line count `activeCount - 1`, and the active lines become `lines`
with the `k`-th one removed, the others in their original order. -/
theorem delete_removes_line (e : Editor) (lines : List (List Char)) (k : Nat)
    (hn : e.num_strings = (lines.length : Int))
    (hact : e.buffer.take lines.length = lines.map some)
    (h1 : 1 ≤ k) (hk : k ≤ lines.length) :
    ∃ e', deleteCase e (k : Int) = .ok (.lineDeleted (k : Int), e') ∧
      e'.num_strings = ((lines.length - 1 : Nat) : Int) ∧
      e'.buffer.take (lines.length - 1) = (lines.eraseIdx (k - 1)).map some := by
  have hlen : lines.length ≤ e.buffer.length := by
    have := congrArg List.length hact
    simp only [List.length_take, List.length_map] at this
    omega
  have hget : ∀ j, j < lines.length → e.buffer[j]? = Option.map some lines[j]? := by
    intro j hj
    rw [← List.getElem?_take_of_lt hj, hact, List.getElem?_map]
  have hinit : ∀ j, k ≤ j → j < k + (lines.length - k) →
      ∃ s, e.buffer[j]? = some (some s) := by
    intro j _ hj
    have hjl : j < lines.length := by omega
    exact ⟨lines[j], by rw [hget j hjl, List.getElem?_eq_getElem hjl]; rfl⟩
  obtain ⟨shifted, hrun, hl, hg⟩ :=
    shiftLoop_spec (lines.length - k) k e.buffer h1 (by omega) hinit
  have hcount : (e.num_strings - (k : Int)).toNat = lines.length - k := by
    rw [hn]; omega
  have hlast : e.num_strings - 1 = ((lines.length - 1 : Nat) : Int) := by
    rw [hn]; omega
  have hset : setSlot shifted (e.num_strings - 1) none =
      some (shifted.set (lines.length - 1) none) := by
    rw [hlast]
    exact setSlot_natCast shifted _ none (by omega)
  have hne : e.num_strings ≠ 0 := by rw [hn]; omega
  have hguard : ¬ ((k : Int) > e.num_strings ∨ (k : Int) < 0) := by rw [hn]; omega
  refine ⟨⟨e.max_length, e.max_strings, shifted.set (lines.length - 1) none,
    e.num_strings - 1⟩, ?_, hlast, ?_⟩
  · unfold deleteCase
    rw [if_neg hne, if_neg hguard, hcount, hrun]
    simp only [hset]
  · apply List.ext_getElem?
    intro j
    simp only [List.getElem?_take, List.getElem?_map, List.getElem?_eraseIdx]
    by_cases hj : j < lines.length - 1
    · rw [if_pos hj, List.getElem?_set_ne (by omega), hg j]
      by_cases hjk : j < k - 1
      · rw [if_neg (by omega), if_pos hjk, hget j (by omega)]
      · rw [if_pos (by omega), if_neg hjk, hget (j + 1) (by omega)]
    · rw [if_neg hj, if_neg (by omega), List.getElem?_eq_none (by omega)]
      rfl

/-- Witness of C6: deleting line 2 of "alpha", "beta", "gamma" leaves
"alpha", "gamma" and a line count of 2. -/
theorem delete_removes_line_witness :
    ∃ e', deleteCase ⟨20, 3, [some "alpha".toList, some "beta".toList,
        some "gamma".toList], 3⟩ 2 = .ok (.lineDeleted 2, e') ∧
      e'.num_strings = 2 ∧
      e'.buffer.take 2 = [some "alpha".toList, some "gamma".toList] :=
  delete_removes_line
    ⟨20, 3, [some "alpha".toList, some "beta".toList, some "gamma".toList], 3⟩
    ["alpha".toList, "beta".toList, "gamma".toList] 2 rfl rfl (by decide) (by decide)

/-- C7: an insert whose text read fails is not atomic. On the fresh editor
(no line, capacity 3) with `stdin` at end of file, case 1 prints "Input
error" after `num_strings++` and leaves `num_strings` at 1, although no line
was stored; the buffer-full branch next to it restores the count. -/
theorem insert_input_error_changes_count :
    (freshEditor 20 3).num_strings = 0 ∧
    insertCase (freshEditor 20 3) [] =
      .ok (.inputError, ⟨20, 3, [none, none, none], 1⟩, []) := by
  decide

/-- C8: when the line count equals the capacity, the insert case prints the
buffer-overflow message, reads nothing and leaves the line count and every
slot as they were. -/
theorem insert_full_rejected (e : Editor) (stdin : List Char)
    (h : e.num_strings = e.max_strings) :
    insertCase e stdin = .ok (.bufferOverflow, e, stdin) := by
  obtain ⟨ml, ms, buf, n⟩ := e
  simp only at h
  subst h
  simp [insertCase]

/-- Witness of C8: a full buffer of capacity 2. -/
theorem insert_full_rejected_witness :
    insertCase ⟨20, 2, [some ['a'], some ['b']], 2⟩ ['c', newline] =
      .ok (.bufferOverflow, ⟨20, 2, [some ['a'], some ['b']], 2⟩, ['c', newline]) :=
  insert_full_rejected ⟨20, 2, [some ['a'], some ['b']], 2⟩ ['c', newline] rfl

/-- C9: with `n` active lines, `n` below the capacity, and an input line
`text` (no newline, no NUL, shorter than `max_length - 1`) followed by a
newline, the insert case succeeds, leaves the first `n` lines unchanged,
stores `text` as line `n + 1` and makes the line count `n + 1`. -/
theorem insert_appends (e : Editor) (n : Nat) (text tail : List Char)
    (hn : e.num_strings = (n : Int)) (hcap : e.num_strings < e.max_strings)
    (hbuf : (e.buffer.length : Int) = e.max_strings)
    (hnl : newline ∉ text) (hnul : NUL ∉ text)
    (hlen : (text.length : Int) < e.max_length - 1) :
    ∃ e', insertCase e (text ++ newline :: tail) = .ok (.textEntered, e', tail) ∧
      e'.num_strings = ((n + 1 : Nat) : Int) ∧
      e'.buffer.take n = e.buffer.take n ∧
      e'.buffer[n]? = some (some text) := by
  have hlt : n < e.buffer.length := by omega
  have hfull : ¬ e.num_strings + 1 > e.max_strings := by omega
  have hread := fgets_line e.max_length text tail hnl hlen
  have hnul' : NUL ∉ text ++ [newline] := by
    intro hmem
    rcases List.mem_append.mp hmem with h | h
    · exact hnul h
    · exact absurd (List.mem_singleton.mp h) (by decide)
  have hstrip : stripNewline (cstring (text ++ [newline])) = text := by
    rw [cstring_eq_self _ hnul']
    exact stripNewline_line text [] hnl
  have hidx : e.num_strings + 1 - 1 = (n : Int) := by omega
  refine ⟨⟨e.max_length, e.max_strings, e.buffer.set n (some text), e.num_strings + 1⟩,
    ?_, by simp only; omega, ?_, ?_⟩
  · unfold insertCase
    simp only [if_neg hfull, hread, hstrip, hidx, setSlot_natCast e.buffer n (some text) hlt]
  · simp only
    apply List.ext_getElem?
    intro j
    simp only [List.getElem?_take]
    by_cases hj : j < n
    · rw [if_pos hj, if_pos hj, List.getElem?_set_ne (by omega)]
    · rw [if_neg hj, if_neg hj]
  · simp only
    rw [List.getElem?_set_self hlt]

/-- Witness of C9: inserting "gamma" after "alpha" and "beta" in a buffer
of capacity 3 with lines of at most 19 characters. -/
theorem insert_appends_witness :
    ∃ e', insertCase ⟨20, 3, [some "alpha".toList, some "beta".toList, none], 2⟩
        ("gamma".toList ++ newline :: []) = .ok (.textEntered, e', []) ∧
      e'.num_strings = ((2 + 1 : Nat) : Int) ∧
      e'.buffer.take 2 = [some "alpha".toList, some "beta".toList] ∧
      e'.buffer[2]? = some (some "gamma".toList) :=
  insert_appends ⟨20, 3, [some "alpha".toList, some "beta".toList, none], 2⟩ 2
    "gamma".toList [] rfl (by decide) rfl (by decide) (by decide) (by decide)

/-- C10: saving and loading does not reproduce a buffer with a line of the
maximal length before another line. With `max_length = 3`, inserting "ab"
and then "c" gives the lines "ab", "c"; case 4 writes "ab\nc\n"; case 5
reads "ab" without its newline, then takes the left-over newline as the
second line, so the lines come back as "ab", "". -/
theorem save_load_loses_line_after_full_line :
    insertCase (freshEditor 3 2) ['a', 'b', newline] =
      .ok (.textEntered, ⟨3, 2, [some ['a', 'b'], none], 1⟩, [newline]) ∧
    insertCase ⟨3, 2, [some ['a', 'b'], none], 1⟩ ['c', newline] =
      .ok (.textEntered, ⟨3, 2, [some ['a', 'b'], some ['c']], 2⟩, []) ∧
    saveCase ⟨3, 2, [some ['a', 'b'], some ['c']], 2⟩ =
      .ok ['a', 'b', newline, 'c', newline] ∧
    loadCase ⟨3, 2, [some ['a', 'b'], some ['c']], 2⟩ ['a', 'b', newline, 'c', newline] =
      .ok ⟨3, 2, [some ['a', 'b'], some []], 2⟩ := by
  decide

/-! ## Lemmas on the load loop -/

theorem stripNewline_eq_self (text : List Char) (h : newline ∉ text) :
    stripNewline text = text := by
  induction text with
  | nil => rfl
  | cons c t ih =>
    have hc : c ≠ newline := fun hc => h (by simp [hc])
    have ht : newline ∉ t := fun ht => h (by simp [ht])
    have := ih ht
    unfold stripNewline at this ⊢
    rw [List.takeWhile_cons, this]
    exact if_pos (decide_eq_true hc)

theorem fgets_eof (n : Int) (hn : 2 ≤ n) : fgets n [] = none := by
  have h1 : ¬ n ≤ 0 := by omega
  have h2 : ¬ n = 1 := by omega
  unfold fgets
  rw [if_neg h1, if_neg h2]

theorem loadLoop_succ_read {max_length : Int} (count : Nat) {i : Nat} {buffer : List Slot}
    {file bytes rest : List Char} (hi : i < buffer.length)
    (hread : fgets max_length file = some (bytes, rest)) :
    loadLoop max_length (count + 1) (i : Int) buffer file =
      loadLoop max_length count ((i + 1 : Nat) : Int)
        (buffer.set i (some (stripNewline (cstring bytes)))) rest := by
  have hslot : slotAt buffer (i : Int) = some buffer[i] := by
    rw [slotAt_natCast, List.getElem?_eq_getElem hi]
  have hcast : (i : Int) + 1 = ((i + 1 : Nat) : Int) := by omega
  simp only [loadLoop, hslot, hread, setSlot_natCast buffer i _ hi, hcast]

theorem loadLoop_succ_eof {max_length : Int} (count : Nat) {i : Nat} {buffer : List Slot}
    {file s : List Char} (hs : buffer[i]? = some (some s))
    (hread : fgets max_length file = none) :
    loadLoop max_length (count + 1) (i : Int) buffer file =
      loadLoop max_length count ((i + 1 : Nat) : Int)
        (buffer.set i (some (stripNewline s))) file := by
  have hi : i < buffer.length := (List.getElem?_eq_some.mp hs).1
  have hslot : slotAt buffer (i : Int) = some (some s) := by
    rw [slotAt_natCast, hs]
  have hcast : (i : Int) + 1 = ((i + 1 : Nat) : Int) := by omega
  simp only [loadLoop, hslot, hread, setSlot_natCast buffer i _ hi, hcast]

/-- The load loop on a file of well-formed lines: slot `i + t` receives line
`t` of the file as long as the file has lines; the slots read after the end
of the file, and all slots outside `i .. i + count - 1`, keep their
contents. -/
theorem loadLoop_spec (max_length : Int) (hml : 2 ≤ max_length) (count : Nat) :
    ∀ (i : Nat) (buffer : List Slot) (ls : List (List Char)),
      i + count ≤ buffer.length →
      (∀ l ∈ ls, newline ∉ l ∧ NUL ∉ l ∧ (l.length : Int) < max_length - 1) →
      (∀ j, i + ls.length ≤ j → j < i + count →
        ∃ s, buffer[j]? = some (some s) ∧ newline ∉ s) →
      ∃ buffer' rest, loadLoop max_length count (i : Int) buffer (streamOfLines ls) =
          .ok (buffer', rest) ∧ buffer'.length = buffer.length ∧
        ∀ j, buffer'[j]? =
          if i ≤ j ∧ j < i + count ∧ j - i < ls.length then Option.map some ls[j - i]?
          else buffer[j]? := by
  induction count with
  | zero =>
    intro i buffer ls _ _ _
    refine ⟨buffer, streamOfLines ls, rfl, rfl, fun j => ?_⟩
    rw [if_neg (by omega)]
  | succ count ih =>
    intro i buffer ls hlen hls hold
    cases ls with
    | nil =>
      obtain ⟨s, hs, hsn⟩ := hold i (by simp) (by omega)
      have hstep := loadLoop_succ_eof count hs (fgets_eof max_length hml)
      rw [stripNewline_eq_self s hsn] at hstep
      have hsame : ∀ j : Nat, (buffer.set i (some s))[j]? = buffer[j]? := by
        intro j
        by_cases hj : i = j
        · subst hj
          rw [List.getElem?_set_self (by omega), hs]
        · rw [List.getElem?_set_ne hj]
      have hold' : ∀ j, i + 1 + ([] : List (List Char)).length ≤ j → j < i + 1 + count →
          ∃ s', (buffer.set i (some s))[j]? = some (some s') ∧ newline ∉ s' := by
        intro j _ h2
        rw [hsame j]
        exact hold j (by simp; omega) (by omega)
      obtain ⟨buffer', rest, hrun, hl, hget⟩ :=
        ih (i + 1) (buffer.set i (some s)) [] (by simp; omega) (by simp) hold'
      refine ⟨buffer', rest, ?_, by simpa using hl, fun j => ?_⟩
      · rw [streamOfLines, hstep]
        exact hrun
      · rw [hget j, if_neg (by simp), if_neg (by simp), hsame j]
    | cons l ls' =>
      obtain ⟨hl1, hl2, hl3⟩ := hls l (by simp)
      have hi : i < buffer.length := by omega
      have hnul : NUL ∉ l ++ [newline] := by
        intro hmem
        rcases List.mem_append.mp hmem with h | h
        · exact hl2 h
        · exact absurd (List.mem_singleton.mp h) (by decide)
      have hstep := loadLoop_succ_read count hi
        (fgets_line max_length l (streamOfLines ls') hl1 hl3)
      rw [cstring_eq_self _ hnul, stripNewline_line l [] hl1] at hstep
      have hold' : ∀ j, i + 1 + ls'.length ≤ j → j < i + 1 + count →
          ∃ s', (buffer.set i (some l))[j]? = some (some s') ∧ newline ∉ s' := by
        intro j h1 h2
        rw [List.getElem?_set_ne (by omega)]
        exact hold j (by simp; omega) (by omega)
      obtain ⟨buffer', rest, hrun, hl, hget⟩ :=
        ih (i + 1) (buffer.set i (some l)) ls' (by simp; omega)
          (fun l' hl' => hls l' (by simp [hl'])) hold'
      refine ⟨buffer', rest, ?_, by simpa using hl, fun j => ?_⟩
      · rw [streamOfLines, hstep]
        exact hrun
      · rw [hget j]
        by_cases hj : j = i
        · subst hj
          rw [if_neg (by omega), if_pos (by simp), List.getElem?_set_self hi]
          simp
        · by_cases hr : i + 1 ≤ j ∧ j < i + 1 + count ∧ j - (i + 1) < ls'.length
          · have e : j - i = (j - (i + 1)) + 1 := by omega
            rw [if_pos hr, if_pos (by simp; omega), e, List.getElem?_cons_succ]
          · rw [if_neg hr, if_neg (by simp; omega), List.getElem?_set_ne (by omega)]


/-! ## Lemmas on the menu cases -/

/-- What a successful insert has done: the count was below the capacity, the
text read by `fgets` was stored in slot `num_strings`, and the count was
incremented. -/
theorem insertCase_textEntered {e e1 : Editor} {stdin rest : List Char}
    (h : insertCase e stdin = .ok (.textEntered, e1, rest)) :
    ∃ bytes, fgets e.max_length stdin = some (bytes, rest) ∧
      0 ≤ e.num_strings ∧ e.num_strings < e.buffer.length ∧
      e.num_strings < e.max_strings ∧
      e1 = ⟨e.max_length, e.max_strings,
        e.buffer.set e.num_strings.toNat (some (stripNewline (cstring bytes))),
        e.num_strings + 1⟩ := by
  unfold insertCase at h
  simp only at h
  by_cases hfull : e.num_strings + 1 > e.max_strings
  · rw [if_pos hfull] at h
    simp at h
  · rw [if_neg hfull] at h
    cases hread : fgets e.max_length stdin with
    | none =>
      rw [hread] at h
      simp at h
    | some r =>
      obtain ⟨bytes, rest'⟩ := r
      rw [hread] at h
      simp only [setSlot] at h
      by_cases hidx : 0 ≤ e.num_strings + 1 - 1 ∧ e.num_strings + 1 - 1 < e.buffer.length
      · rw [if_pos hidx] at h
        simp only [Except.ok.injEq, Prod.mk.injEq, true_and] at h
        obtain ⟨he, hr⟩ := h
        have hto : (e.num_strings + 1 - 1).toNat = e.num_strings.toNat := by omega
        rw [hto] at he
        exact ⟨bytes, by rw [hr], by omega, by omega, by omega, he.symm⟩
      · rw [if_neg hidx] at h
        simp at h

/-- The insert case never changes the capacity and keeps the count between
0 and the capacity. -/
theorem insertCase_count {e e' : Editor} {stdin rest : List Char} {m : Message}
    (h : insertCase e stdin = .ok (m, e', rest))
    (h0 : 0 ≤ e.num_strings) (h1 : e.num_strings ≤ e.max_strings) :
    e'.max_strings = e.max_strings ∧ 0 ≤ e'.num_strings ∧
      e'.num_strings ≤ e.max_strings := by
  unfold insertCase at h
  simp only at h
  by_cases hfull : e.num_strings + 1 > e.max_strings
  · rw [if_pos hfull] at h
    simp only [Except.ok.injEq, Prod.mk.injEq] at h
    obtain ⟨_, he, _⟩ := h
    rw [← he]
    exact ⟨rfl, by simp only; omega, by simp only; omega⟩
  · rw [if_neg hfull] at h
    cases hread : fgets e.max_length stdin with
    | none =>
      rw [hread] at h
      simp only [Except.ok.injEq, Prod.mk.injEq] at h
      obtain ⟨_, he, _⟩ := h
      rw [← he]
      exact ⟨rfl, by simp only; omega, by simp only; omega⟩
    | some r =>
      obtain ⟨bytes, rest'⟩ := r
      rw [hread] at h
      simp only at h
      cases hset : setSlot e.buffer (e.num_strings + 1 - 1)
          (some (stripNewline (cstring bytes))) with
      | none =>
        rw [hset] at h
        simp at h
      | some buffer' =>
        rw [hset] at h
        simp only [Except.ok.injEq, Prod.mk.injEq] at h
        obtain ⟨_, he, _⟩ := h
        rw [← he]
        exact ⟨rfl, by simp only; omega, by simp only; omega⟩

/-- The delete case never changes the capacity and keeps the count between
0 and the capacity. -/
theorem deleteCase_count {e e' : Editor} {line_num : Int} {m : Message}
    (h : deleteCase e line_num = .ok (m, e'))
    (h0 : 0 ≤ e.num_strings) (h1 : e.num_strings ≤ e.max_strings) :
    e'.max_strings = e.max_strings ∧ 0 ≤ e'.num_strings ∧
      e'.num_strings ≤ e.max_strings := by
  unfold deleteCase at h
  by_cases hz : e.num_strings = 0
  · rw [if_pos hz] at h
    simp only [Except.ok.injEq, Prod.mk.injEq] at h
    rw [← h.2]
    exact ⟨rfl, h0, h1⟩
  · rw [if_neg hz] at h
    by_cases hg : line_num > e.num_strings ∨ line_num < 0
    · rw [if_pos hg] at h
      simp only [Except.ok.injEq, Prod.mk.injEq] at h
      rw [← h.2]
      exact ⟨rfl, h0, h1⟩
    · rw [if_neg hg] at h
      cases hshift : shiftLoop (e.num_strings - line_num).toNat line_num e.buffer with
      | error f =>
        rw [hshift] at h
        simp at h
      | ok shifted =>
        rw [hshift] at h
        simp only at h
        cases hset : setSlot shifted (e.num_strings - 1) none with
        | none =>
          rw [hset] at h
          simp at h
        | some buffer' =>
          rw [hset] at h
          simp only [Except.ok.injEq, Prod.mk.injEq] at h
          rw [← h.2]
          exact ⟨rfl, by simp only; omega, by simp only; omega⟩

/-- The load case changes neither the capacity nor the count. -/
theorem loadCase_count {e e' : Editor} {file : List Char}
    (h : loadCase e file = .ok e') :
    e'.max_strings = e.max_strings ∧ e'.num_strings = e.num_strings := by
  unfold loadCase at h
  cases hloop : loadLoop e.max_length e.num_strings.toNat 0 e.buffer file with
  | error f =>
    rw [hloop] at h
    simp at h
  | ok r =>
    rw [hloop] at h
    simp only [Except.ok.injEq] at h
    rw [← h]
    exact ⟨rfl, rfl⟩

/-- One menu operation keeps the capacity and keeps the count between 0 and
the capacity. -/
theorem step_count {e e' : Editor} {op : Op} (h : step e op = .ok e')
    (h0 : 0 ≤ e.num_strings) (h1 : e.num_strings ≤ e.max_strings) :
    e'.max_strings = e.max_strings ∧ 0 ≤ e'.num_strings ∧
      e'.num_strings ≤ e.max_strings := by
  cases op with
  | insert stdin =>
    simp only [step] at h
    cases hc : insertCase e stdin with
    | error f => rw [hc] at h; simp at h
    | ok r =>
      obtain ⟨m, e1, rest⟩ := r
      rw [hc] at h
      simp only [Except.ok.injEq] at h
      rw [← h]
      exact insertCase_count hc h0 h1
  | delete line_num =>
    simp only [step] at h
    cases hc : deleteCase e line_num with
    | error f => rw [hc] at h; simp at h
    | ok r =>
      obtain ⟨m, e1⟩ := r
      rw [hc] at h
      simp only [Except.ok.injEq] at h
      rw [← h]
      exact deleteCase_count hc h0 h1
  | search line_num stdin =>
    simp only [step] at h
    cases hc : searchCase e line_num stdin with
    | error f => rw [hc] at h; simp at h
    | ok r =>
      rw [hc] at h
      simp only [Except.ok.injEq] at h
      rw [← h]
      exact ⟨rfl, h0, h1⟩
  | save =>
    simp only [step] at h
    cases hc : saveCase e with
    | error f => rw [hc] at h; simp at h
    | ok r =>
      rw [hc] at h
      simp only [Except.ok.injEq] at h
      rw [← h]
      exact ⟨rfl, h0, h1⟩
  | load file =>
    simp only [step] at h
    cases hc : loadCase e file with
    | error f => rw [hc] at h; simp at h
    | ok e1 =>
      rw [hc] at h
      simp only [Except.ok.injEq] at h
      rw [← h]
      obtain ⟨a, b⟩ := loadCase_count hc
      exact ⟨a, by rw [b]; exact h0, by rw [b]; exact h1⟩

theorem run_count (ops : List Op) :
    ∀ (e e' : Editor), run e ops = .ok e' → 0 ≤ e.num_strings →
      e.num_strings ≤ e.max_strings →
      e'.max_strings = e.max_strings ∧ 0 ≤ e'.num_strings ∧
        e'.num_strings ≤ e'.max_strings := by
  induction ops with
  | nil =>
    intro e e' h h0 h1
    simp only [run, Except.ok.injEq] at h
    rw [← h]
    exact ⟨rfl, h0, h1⟩
  | cons op ops ih =>
    intro e e' h h0 h1
    simp only [run] at h
    cases hs : step e op with
    | error f => rw [hs] at h; simp at h
    | ok e1 =>
      rw [hs] at h
      simp only at h
      obtain ⟨a, b, c⟩ := step_count hs h0 h1
      obtain ⟨a', b', c'⟩ := ih e1 e' h b (by rw [a]; exact c)
      exact ⟨by rw [a', a], b', c'⟩

theorem insertCase_countStep {e e' : Editor} {stdin rest : List Char} {m : Message}
    (h : insertCase e stdin = .ok (m, e', rest)) :
    e'.num_strings = countStep e.max_strings e.num_strings (.insert stdin) := by
  unfold insertCase at h
  simp only at h
  by_cases hfull : e.num_strings + 1 > e.max_strings
  · rw [if_pos hfull] at h
    simp only [Except.ok.injEq, Prod.mk.injEq] at h
    obtain ⟨_, he, _⟩ := h
    rw [← he]
    simp only [countStep, if_pos hfull]
  · rw [if_neg hfull] at h
    cases hread : fgets e.max_length stdin with
    | none =>
      rw [hread] at h
      simp only [Except.ok.injEq, Prod.mk.injEq] at h
      obtain ⟨_, he, _⟩ := h
      rw [← he]
      simp only [countStep, if_neg hfull]
    | some r =>
      obtain ⟨bytes, rest'⟩ := r
      rw [hread] at h
      simp only at h
      cases hset : setSlot e.buffer (e.num_strings + 1 - 1)
          (some (stripNewline (cstring bytes))) with
      | none =>
        rw [hset] at h
        simp at h
      | some buffer' =>
        rw [hset] at h
        simp only [Except.ok.injEq, Prod.mk.injEq] at h
        obtain ⟨_, he, _⟩ := h
        rw [← he]
        simp only [countStep, if_neg hfull]

theorem deleteCase_countStep {e e' : Editor} {line_num : Int} {m : Message}
    (h : deleteCase e line_num = .ok (m, e')) :
    e'.num_strings = countStep e.max_strings e.num_strings (.delete line_num) := by
  unfold deleteCase at h
  by_cases hz : e.num_strings = 0
  · rw [if_pos hz] at h
    simp only [Except.ok.injEq, Prod.mk.injEq] at h
    rw [← h.2]
    simp only [countStep, if_pos hz]
  · rw [if_neg hz] at h
    by_cases hg : line_num > e.num_strings ∨ line_num < 0
    · rw [if_pos hg] at h
      simp only [Except.ok.injEq, Prod.mk.injEq] at h
      rw [← h.2]
      simp only [countStep, if_neg hz, if_pos hg]
    · rw [if_neg hg] at h
      cases hshift : shiftLoop (e.num_strings - line_num).toNat line_num e.buffer with
      | error f =>
        rw [hshift] at h
        simp at h
      | ok shifted =>
        rw [hshift] at h
        simp only at h
        cases hset : setSlot shifted (e.num_strings - 1) none with
        | none =>
          rw [hset] at h
          simp at h
        | some buffer' =>
          rw [hset] at h
          simp only [Except.ok.injEq, Prod.mk.injEq] at h
          rw [← h.2]
          simp only [countStep, if_neg hz, if_neg hg]

/-- Wherever the editor model completes an operation, its line count is the
one given by `countStep`. -/
theorem step_countStep {e e' : Editor} {op : Op} (h : step e op = .ok e') :
    e'.num_strings = countStep e.max_strings e.num_strings op := by
  cases op with
  | insert stdin =>
    simp only [step] at h
    cases hc : insertCase e stdin with
    | error f => rw [hc] at h; simp at h
    | ok r =>
      obtain ⟨m, e1, rest⟩ := r
      rw [hc] at h
      simp only [Except.ok.injEq] at h
      rw [← h]
      exact insertCase_countStep hc
  | delete line_num =>
    simp only [step] at h
    cases hc : deleteCase e line_num with
    | error f => rw [hc] at h; simp at h
    | ok r =>
      obtain ⟨m, e1⟩ := r
      rw [hc] at h
      simp only [Except.ok.injEq] at h
      rw [← h]
      exact deleteCase_countStep hc
  | search line_num stdin =>
    simp only [step] at h
    cases hc : searchCase e line_num stdin with
    | error f => rw [hc] at h; simp at h
    | ok r =>
      rw [hc] at h
      simp only [Except.ok.injEq] at h
      rw [← h]
      rfl
  | save =>
    simp only [step] at h
    cases hc : saveCase e with
    | error f => rw [hc] at h; simp at h
    | ok r =>
      rw [hc] at h
      simp only [Except.ok.injEq] at h
      rw [← h]
      rfl
  | load file =>
    simp only [step] at h
    cases hc : loadCase e file with
    | error f => rw [hc] at h; simp at h
    | ok e1 =>
      rw [hc] at h
      simp only [Except.ok.injEq] at h
      rw [← h]
      exact (loadCase_count hc).2

theorem step_max_strings {e e' : Editor} {op : Op} (h : step e op = .ok e') :
    e'.max_strings = e.max_strings := by
  cases op with
  | insert stdin =>
    simp only [step] at h
    cases hc : insertCase e stdin with
    | error f => rw [hc] at h; simp at h
    | ok r =>
      obtain ⟨m, e1, rest⟩ := r
      rw [hc] at h
      simp only [Except.ok.injEq] at h
      rw [← h]
      unfold insertCase at hc
      simp only at hc
      split at hc
      · simp only [Except.ok.injEq, Prod.mk.injEq] at hc
        rw [← hc.2.1]
      · split at hc
        · simp only [Except.ok.injEq, Prod.mk.injEq] at hc
          rw [← hc.2.1]
        · split at hc
          · simp at hc
          · simp only [Except.ok.injEq, Prod.mk.injEq] at hc
            rw [← hc.2.1]
  | delete line_num =>
    simp only [step] at h
    cases hc : deleteCase e line_num with
    | error f => rw [hc] at h; simp at h
    | ok r =>
      obtain ⟨m, e1⟩ := r
      rw [hc] at h
      simp only [Except.ok.injEq] at h
      rw [← h]
      unfold deleteCase at hc
      split at hc
      · simp only [Except.ok.injEq, Prod.mk.injEq] at hc
        rw [← hc.2]
      · split at hc
        · simp only [Except.ok.injEq, Prod.mk.injEq] at hc
          rw [← hc.2]
        · split at hc
          · simp at hc
          · split at hc
            · simp at hc
            · simp only [Except.ok.injEq, Prod.mk.injEq] at hc
              rw [← hc.2]
  | search line_num stdin =>
    simp only [step] at h
    cases hc : searchCase e line_num stdin with
    | error f => rw [hc] at h; simp at h
    | ok r =>
      rw [hc] at h
      simp only [Except.ok.injEq] at h
      rw [← h]
  | save =>
    simp only [step] at h
    cases hc : saveCase e with
    | error f => rw [hc] at h; simp at h
    | ok r =>
      rw [hc] at h
      simp only [Except.ok.injEq] at h
      rw [← h]
  | load file =>
    simp only [step] at h
    cases hc : loadCase e file with
    | error f => rw [hc] at h; simp at h
    | ok e1 =>
      rw [hc] at h
      simp only [Except.ok.injEq] at h
      rw [← h]
      exact (loadCase_count hc).1

/-- Along every run that the editor model completes, the line count is the
one given by `countRun` and the capacity does not change. -/
theorem run_countRun (ops : List Op) :
    ∀ (e e' : Editor), run e ops = .ok e' →
      e'.num_strings = countRun e.max_strings e.num_strings ops ∧
        e'.max_strings = e.max_strings := by
  induction ops with
  | nil =>
    intro e e' h
    simp only [run, Except.ok.injEq] at h
    rw [← h]
    exact ⟨rfl, rfl⟩
  | cons op ops ih =>
    intro e e' h
    simp only [run] at h
    cases hs : step e op with
    | error f => rw [hs] at h; simp at h
    | ok e1 =>
      rw [hs] at h
      simp only at h
      obtain ⟨a, b⟩ := ih e1 e' h
      rw [step_countStep hs, step_max_strings hs] at a
      exact ⟨by simp only [countRun]; exact a, by rw [b, step_max_strings hs]⟩

theorem countStep_bounds (max_strings num_strings : Int) (op : Op)
    (h0 : 0 ≤ num_strings) (h1 : num_strings ≤ max_strings) :
    0 ≤ countStep max_strings num_strings op ∧
      countStep max_strings num_strings op ≤ max_strings := by
  cases op with
  | insert stdin =>
    simp only [countStep]
    split <;> omega
  | delete line_num =>
    simp only [countStep]
    split
    · omega
    · split <;> omega
  | search line_num stdin => exact ⟨h0, h1⟩
  | save => exact ⟨h0, h1⟩
  | load file => exact ⟨h0, h1⟩

theorem countRun_bounds (max_strings : Int) (ops : List Op) :
    ∀ num_strings : Int, 0 ≤ num_strings → num_strings ≤ max_strings →
      0 ≤ countRun max_strings num_strings ops ∧
        countRun max_strings num_strings ops ≤ max_strings := by
  induction ops with
  | nil =>
    intro n h0 h1
    exact ⟨h0, h1⟩
  | cons op ops ih =>
    intro n h0 h1
    obtain ⟨a, b⟩ := countStep_bounds max_strings n op h0 h1
    simp only [countRun]
    exact ih _ a b

/-! ## The load claim -/

/-- Counterexample for C11: on the fresh editor (capacity 2, no line) the
load case given the two-line file "a\nb\n" runs its loop zero times: the
editor is unchanged, so the buffer does not hold the lines "a", "b" and the
line count is not 2. -/
theorem load_reads_nothing_on_empty_buffer :
    loadCase (freshEditor 20 2) (streamOfLines [['a'], ['b']]) = .ok (freshEditor 20 2) ∧
    ¬ ∃ e', loadCase (freshEditor 20 2) (streamOfLines [['a'], ['b']]) = .ok e' ∧
        e'.num_strings = 2 ∧ e'.buffer.take 2 = [some ['a'], some ['b']] := by
  have h : loadCase (freshEditor 20 2) (streamOfLines [['a'], ['b']]) =
      .ok (freshEditor 20 2) := by decide
  refine ⟨h, ?_⟩
  rintro ⟨e', he', hn, _⟩
  rw [h] at he'
  have heq : freshEditor 20 2 = e' := Except.ok.inj he'
  rw [← heq] at hn
  exact absurd hn (by decide)

/-- C11 (amended): with `n` active lines and a file of `m` well-formed lines
(no newline or NUL inside, shorter than `max_length - 1`, each followed by a
newline), the load case overwrites the first `min m n` lines of the buffer
with the first `min m n` lines of the file, in order and without their
terminators, keeps every other slot, and leaves the line count at `n`. The
active lines after the `m`-th are assumed to hold newline-free strings. -/
theorem load_overwrites_active_lines (e : Editor) (n : Nat) (ls : List (List Char))
    (hn : e.num_strings = (n : Int)) (hlen : n ≤ e.buffer.length)
    (hml : 2 ≤ e.max_length)
    (hls : ∀ l ∈ ls, newline ∉ l ∧ NUL ∉ l ∧ (l.length : Int) < e.max_length - 1)
    (hold : ∀ j, ls.length ≤ j → j < n →
      ∃ s, e.buffer[j]? = some (some s) ∧ newline ∉ s) :
    ∃ e', loadCase e (streamOfLines ls) = .ok e' ∧
      e'.num_strings = e.num_strings ∧
      e'.buffer.take (min ls.length n) = (ls.take (min ls.length n)).map some ∧
      e'.buffer.drop (min ls.length n) = e.buffer.drop (min ls.length n) := by
  obtain ⟨buffer', rest, hrun, _, hget⟩ :=
    loadLoop_spec e.max_length hml n 0 e.buffer ls (by omega) hls
      (fun j h1 h2 => hold j (by omega) (by omega))
  have h0 : ((0 : Nat) : Int) = 0 := rfl
  have hcount : e.num_strings.toNat = n := by omega
  rw [h0] at hrun
  refine ⟨⟨e.max_length, e.max_strings, buffer', e.num_strings⟩, ?_, rfl, ?_, ?_⟩
  · simp only [loadCase, hcount, hrun]
  · apply List.ext_getElem?
    intro j
    simp only [List.getElem?_take, List.getElem?_map]
    by_cases hj : j < min ls.length n
    · rw [if_pos hj, if_pos hj, hget j, if_pos (by omega)]
      rfl
    · rw [if_neg hj, if_neg hj]
      rfl
  · apply List.ext_getElem?
    intro j
    simp only [List.getElem?_drop]
    rw [hget, if_neg (by omega)]

/-- Witness of C11 (amended): two active lines "alpha", "beta" and a file
with the single line "a": the first line becomes "a", "beta" stays, and the
line count stays 2. -/
theorem load_overwrites_active_lines_witness :
    ∃ e', loadCase ⟨20, 3, [some "alpha".toList, some "beta".toList, none], 2⟩
        (streamOfLines [['a']]) = .ok e' ∧
      e'.num_strings = 2 ∧
      e'.buffer.take (min 1 2) = [some ['a']] ∧
      e'.buffer.drop (min 1 2) = [some "beta".toList, none] :=
  load_overwrites_active_lines
    ⟨20, 3, [some "alpha".toList, some "beta".toList, none], 2⟩ 2 [['a']]
    rfl (by decide) (by decide) (by decide)
    (fun j h1 h2 => by
      have hj : j = 1 := by
        simp only [List.length_singleton] at h1
        omega
      subst hj
      exact ⟨"beta".toList, rfl, by decide⟩)


/-! ## The remaining line-buffer claims -/

/-- C12: the search case does not check the line number. With the single
active line "alpha" in a buffer of 3 slots, line 1 is searched as expected,
but line 2 makes `WordSearch` read the slot `buffer[1]`, which is not an
active line and was never written, and lines 0 and 4 make it read
`buffer[-1]` and `buffer[3]`, outside the array; no index-out-of-range
message exists in this case. -/
theorem search_line_number_not_checked :
    searchCase ⟨20, 3, [some "alpha".toList, none, none], 1⟩ 1 [newline, 'p', 'h', newline] =
      .ok (.wordFound 3, []) ∧
    searchCase ⟨20, 3, [some "alpha".toList, none, none], 1⟩ 2 [newline, 'p', 'h', newline] =
      .error (.memory .uninitialisedRead) ∧
    searchCase ⟨20, 3, [some "alpha".toList, none, none], 1⟩ 0 [newline, 'p', 'h', newline] =
      .error (.memory .outOfBounds) ∧
    searchCase ⟨20, 3, [some "alpha".toList, none, none], 1⟩ 4 [newline, 'p', 'h', newline] =
      .error (.memory .outOfBounds) := by
  decide

/-- C13: a successful insert happens only below the capacity and makes the
count `n + 1`; deleting line `n + 1` right after it succeeds and gives back
the count `n` and the same first `n` lines, in the same order. -/
theorem insert_then_delete_restores (e e1 : Editor) (stdin rest : List Char)
    (h : insertCase e stdin = .ok (.textEntered, e1, rest)) :
    e.num_strings < e.max_strings ∧ e1.num_strings = e.num_strings + 1 ∧
    ∃ e2, deleteCase e1 e1.num_strings = .ok (.lineDeleted e1.num_strings, e2) ∧
      e2.num_strings = e.num_strings ∧
      e2.buffer.take e.num_strings.toNat = e.buffer.take e.num_strings.toNat := by
  obtain ⟨bytes, _, h0, hlt, hcap, he1⟩ := insertCase_textEntered h
  subst he1
  refine ⟨hcap, rfl, ?_⟩
  have hne : ¬ e.num_strings + 1 = 0 := by omega
  have hguard : ¬ (e.num_strings + 1 > e.num_strings + 1 ∨ e.num_strings + 1 < 0) := by
    omega
  have hcount : (e.num_strings + 1 - (e.num_strings + 1)).toNat = 0 := by omega
  have hset : setSlot (e.buffer.set e.num_strings.toNat (some (stripNewline (cstring bytes))))
      (e.num_strings + 1 - 1) none =
      some ((e.buffer.set e.num_strings.toNat
        (some (stripNewline (cstring bytes)))).set e.num_strings.toNat none) := by
    have hidx : e.num_strings + 1 - 1 = ((e.num_strings.toNat : Nat) : Int) := by omega
    rw [hidx]
    exact setSlot_natCast _ _ none (by simp only [List.length_set]; omega)
  refine ⟨⟨e.max_length, e.max_strings,
    (e.buffer.set e.num_strings.toNat (some (stripNewline (cstring bytes)))).set
      e.num_strings.toNat none, e.num_strings + 1 - 1⟩, ?_, by simp only; omega, ?_⟩
  · unfold deleteCase
    simp only
    rw [if_neg hne, if_neg hguard, hcount]
    simp only [shiftLoop, hset]
  · simp only
    apply List.ext_getElem?
    intro j
    simp only [List.getElem?_take]
    by_cases hj : j < e.num_strings.toNat
    · rw [if_pos hj, if_pos hj, List.getElem?_set_ne (by omega),
        List.getElem?_set_ne (by omega)]
    · rw [if_neg hj, if_neg hj]

/-- Witness of C13: inserting "gamma" after "alpha", "beta" and deleting
line 3 right away. -/
theorem insert_then_delete_restores_witness :
    (2 : Int) < 3 ∧ (3 : Int) = 2 + 1 ∧
    ∃ e2, deleteCase ⟨20, 3, [some "alpha".toList, some "beta".toList,
        some "gamma".toList], 3⟩ 3 = .ok (.lineDeleted 3, e2) ∧
      e2.num_strings = 2 ∧
      e2.buffer.take 2 = [some "alpha".toList, some "beta".toList] :=
  insert_then_delete_restores
    ⟨20, 3, [some "alpha".toList, some "beta".toList, none], 2⟩
    ⟨20, 3, [some "alpha".toList, some "beta".toList, some "gamma".toList], 3⟩
    ("gamma".toList ++ [newline]) [] (by decide)

/-- C14: starting from a line count of 0 with a capacity `max_strings ≥ 0`,
after any sequence of menu operations (insert, delete, search, save, load,
with any input, failing reads and any line number included) the line count
satisfies `0 ≤ num_strings ≤ max_strings`. The count is followed through the
statements of `main` that assign it, so the bound holds also for sequences
in which a case reads a slot it should not read; and every editor that the
full model reaches has exactly that count, hence the same bound, with the
capacity it started with. -/
theorem count_within_capacity :
    (∀ (max_strings : Int) (ops : List Op), 0 ≤ max_strings →
      0 ≤ countRun max_strings 0 ops ∧ countRun max_strings 0 ops ≤ max_strings) ∧
    (∀ (e0 e : Editor) (ops : List Op), run e0 ops = .ok e →
      e.num_strings = countRun e0.max_strings e0.num_strings ops ∧
        e.max_strings = e0.max_strings) ∧
    (∀ (e0 e : Editor) (ops : List Op), e0.num_strings = 0 → 0 ≤ e0.max_strings →
      run e0 ops = .ok e →
      0 ≤ e.num_strings ∧ e.num_strings ≤ e.max_strings ∧
        e.max_strings = e0.max_strings) := by
  refine ⟨fun ms ops hms => countRun_bounds ms ops 0 (Int.le_refl 0) hms,
    fun e0 e ops h => run_countRun ops e0 e h, fun e0 e ops h0 hcap hrun => ?_⟩
  obtain ⟨a, b, c⟩ := run_count ops e0 e hrun (by omega) (by omega)
  exact ⟨b, c, a⟩

/-- Witness of C14: with capacity 3, the sequence insert "alpha", search in
line 2 (not an active line), delete line 0, insert with a failing read, save,
insert "x", insert "y", insert on the full buffer, delete line 9: the count
ends at 3, within the bounds, although the editor model stops at the search;
and a sequence that the editor model completes ends with the count 2 that
`countRun` gives. -/
theorem count_within_capacity_witness :
    (run (freshEditor 20 3)
        [.insert ("alpha".toList ++ [newline]), .search 2 [newline, 'a', newline],
          .delete 0, .insert [], .save, .insert ['x', newline], .insert ['y', newline],
          .insert ['z', newline], .delete 9] =
      .error (.memory .uninitialisedRead)) ∧
    ((0 : Int) ≤ countRun 3 0
        [.insert ("alpha".toList ++ [newline]), .search 2 [newline, 'a', newline],
          .delete 0, .insert [], .save, .insert ['x', newline], .insert ['y', newline],
          .insert ['z', newline], .delete 9] ∧
      countRun 3 0
        [.insert ("alpha".toList ++ [newline]), .search 2 [newline, 'a', newline],
          .delete 0, .insert [], .save, .insert ['x', newline], .insert ['y', newline],
          .insert ['z', newline], .delete 9] ≤ 3) ∧
    countRun 3 0
        [.insert ("alpha".toList ++ [newline]), .search 2 [newline, 'a', newline],
          .delete 0, .insert [], .save, .insert ['x', newline], .insert ['y', newline],
          .insert ['z', newline], .delete 9] = 3 ∧
    ((⟨20, 2, [some ['z'], none], 2⟩ : Editor).num_strings =
        countRun 2 0
          [.insert ['a', 'b', newline], .search 1 [newline, 'b', newline], .save,
            .load ['z', newline], .delete 7, .insert [], .insert ['c', newline]] ∧
      (2 : Int) = 2) ∧
    ((0 : Int) ≤ (⟨20, 2, [some ['z'], none], 2⟩ : Editor).num_strings ∧
      (⟨20, 2, [some ['z'], none], 2⟩ : Editor).num_strings ≤ 2 ∧ (2 : Int) = 2) :=
  ⟨by decide,
    count_within_capacity.1 3 _ (by decide),
    by decide,
    count_within_capacity.2.1 (freshEditor 20 2) ⟨20, 2, [some ['z'], none], 2⟩
      [.insert ['a', 'b', newline], .search 1 [newline, 'b', newline], .save,
        .load ['z', newline], .delete 7, .insert [], .insert ['c', newline]]
      (by decide),
    count_within_capacity.2.2 (freshEditor 20 2) ⟨20, 2, [some ['z'], none], 2⟩
      [.insert ['a', 'b', newline], .search 1 [newline, 'b', newline], .save,
        .load ['z', newline], .delete 7, .insert [], .insert ['c', newline]]
      rfl (by decide) (by decide)⟩

/-- C15: on an empty buffer the delete case prints the underflow message
whatever the line number would be, reads nothing from `stdin` (the test
comes before `scanf`), and leaves the count at 0 and every slot unchanged. -/
theorem delete_on_empty_buffer (scanfInt : List Char → Int × List Char) (e : Editor)
    (stdin : List Char) (line_num : Int) (h : e.num_strings = 0) :
    deleteCaseStdin scanfInt e stdin = .ok (.bufferUnderflow, e, stdin) ∧
    deleteCase e line_num = .ok (.bufferUnderflow, e) := by
  constructor
  · unfold deleteCaseStdin
    rw [if_pos h]
  · unfold deleteCase
    rw [if_pos h]

/-- Witness of C15: the fresh editor, with "1\n" waiting on `stdin`. -/
theorem delete_on_empty_buffer_witness :
    deleteCaseStdin (fun s => (1, s.drop 2)) (freshEditor 20 3) ['1', newline] =
      .ok (.bufferUnderflow, freshEditor 20 3, ['1', newline]) ∧
    deleteCase (freshEditor 20 3) 1 = .ok (.bufferUnderflow, freshEditor 20 3) :=
  delete_on_empty_buffer (fun s => (1, s.drop 2)) (freshEditor 20 3) ['1', newline] 1 rfl


/-! ## The claims on the loops of WordSearch -/

theorem border_iff_suffix (word : List Char) {j k : Nat} (hj : j ≤ word.length)
    (hk : k < j) : Border word j k ↔ word.take k <:+ word.take j := by
  rw [List.suffix_iff_eq_drop]
  have hlj : (word.take j).length = j := by rw [List.length_take]; omega
  have hlk : (word.take k).length = k := by rw [List.length_take]; omega
  rw [hlj, hlk]
  constructor
  · intro h
    apply List.ext_getElem?
    intro t
    rw [List.getElem?_drop, List.getElem?_take, List.getElem?_take]
    by_cases ht : t < k
    · rw [if_pos ht, if_pos (by omega)]
      exact h.2 t ht
    · rw [if_neg ht, if_neg (by omega)]
  · intro h
    refine ⟨hk, fun t ht => ?_⟩
    have := congrArg (fun l : List Char => l[t]?) h
    simp only [List.getElem?_drop, List.getElem?_take] at this
    rw [if_pos ht, if_pos (by omega)] at this
    exact this

theorem buildLPS_tableOK {word : List Char} {LPS : List Nat} (hm : 0 < word.length)
    (h : buildLPS word = .ok LPS) : LPS.length = word.length ∧ TableOK word LPS := by
  obtain ⟨LPS', h', hlen, hT⟩ := buildLPS_spec word hm
  rw [h] at h'
  have : LPS = LPS' := Except.ok.inj h'
  subst this
  exact ⟨hlen, hT⟩

/-- C16: for a word of length `m ≥ 1` the table-building loop finishes with
a table of `m` entries in which, for every `i < m`, `LPS[i]` is the length of
the longest proper prefix of `word[0..i]` that is also a suffix of
`word[0..i]`. -/
theorem lps_table_correct (word : List Char) (hm : 1 ≤ word.length) :
    ∃ LPS, buildLPS word = .ok LPS ∧ LPS.length = word.length ∧
      ∀ i, i < word.length → ∃ v, LPS[i]? = some v ∧ v ≤ i ∧
        word.take v <+: word.take (i + 1) ∧ word.take v <:+ word.take (i + 1) ∧
        ∀ p : List Char, p <+: word.take (i + 1) → p <:+ word.take (i + 1) →
          p.length ≤ i → p.length ≤ v := by
  obtain ⟨LPS, hL, hlen, hT⟩ := buildLPS_spec word hm
  refine ⟨LPS, hL, hlen, fun i hi => ?_⟩
  obtain ⟨v, hv, hb, hmax⟩ := hT i hi
  have hvi : v ≤ i := by have := hb.1; omega
  refine ⟨v, hv, hvi, List.take_prefix_take_left word (by omega),
    (border_iff_suffix word (by omega) hb.1).mp hb, fun p hp hs hl => ?_⟩
  have hpe : p = word.take p.length := by
    have := List.prefix_iff_eq_take.mp hp
    rw [List.take_take, Nat.min_eq_left (by omega)] at this
    exact this
  rw [hpe] at hs
  exact hmax p.length ((border_iff_suffix word (by omega) (by omega)).mpr hs)

/-- Witness of C16: the table of "ABABCABAB". -/
theorem lps_table_correct_witness :
    ∃ LPS, buildLPS "ABABCABAB".toList = .ok LPS ∧ LPS.length = "ABABCABAB".toList.length ∧
      ∀ i, i < "ABABCABAB".toList.length → ∃ v, LPS[i]? = some v ∧ v ≤ i ∧
        "ABABCABAB".toList.take v <+: "ABABCABAB".toList.take (i + 1) ∧
        "ABABCABAB".toList.take v <:+ "ABABCABAB".toList.take (i + 1) ∧
        ∀ p : List Char, p <+: "ABABCABAB".toList.take (i + 1) →
          p <:+ "ABABCABAB".toList.take (i + 1) → p.length ≤ i → p.length ≤ v :=
  lps_table_correct "ABABCABAB".toList (by decide)

/-- C17: `WordSearch` returns for every line and word. The table-building
loop reaches `suffixPointer = word_length` within `2 * word_length`
iterations, and the scanning loop returns within `2 * line_length`
iterations; more fuel than that is never used up. -/
theorem wordSearch_terminates (line word : List Char) :
    (∃ r : Int, WordSearch line word = .ok r) ∧
    (∀ fuel, 2 * word.length ≤ fuel →
      ∃ s, tableLoop word fuel ⟨0, 1, List.replicate word.length 0⟩ = .ok s ∧
        ¬ s.suffixPointer < word.length) ∧
    (0 < word.length → ∀ LPS, buildLPS word = .ok LPS →
      ∀ fuel, 2 * line.length ≤ fuel →
        ∃ r : Int, scanLoop line word LPS fuel ⟨0, 0⟩ = .ok r) := by
  refine ⟨?_, ?_, ?_⟩
  · rcases wordSearch_spec line word with ⟨q, hq, _⟩ | ⟨hq, _⟩
    · exact ⟨q, hq⟩
    · exact ⟨-1, hq⟩
  · intro fuel hfuel
    by_cases hm : 0 < word.length
    · obtain ⟨s, hs, _, hdone⟩ :=
        tableLoop_spec fuel ⟨0, 1, List.replicate word.length 0⟩ (tableInv_init word hm)
          (by simp only; omega)
      exact ⟨s, hs, by omega⟩
    · have hexit : ¬ 1 < word.length := by omega
      refine ⟨⟨0, 1, List.replicate word.length 0⟩, ?_, hexit⟩
      cases fuel with
      | zero => simp [tableLoop, hexit]
      | succ fuel => simp [tableLoop, hexit]
  · intro hm LPS hL fuel hfuel
    obtain ⟨_, hT⟩ := buildLPS_tableOK hm hL
    rcases scanLoop_spec hT fuel ⟨0, 0⟩ (scanInv_init line word hm)
      (by simp only; omega) with ⟨q, hq, _⟩ | ⟨hq, _⟩
    · exact ⟨q, hq⟩
    · exact ⟨-1, hq⟩

/-- Witness of C17: searching "ab" in "aab", with fuel beyond the bound. -/
theorem wordSearch_terminates_witness :
    (∃ r : Int, WordSearch ['a', 'a', 'b'] ['a', 'b'] = .ok r) ∧
    (∃ s, tableLoop ['a', 'b'] 9 ⟨0, 1, List.replicate 2 0⟩ = .ok s ∧
      ¬ s.suffixPointer < 2) ∧
    (∃ r : Int, scanLoop ['a', 'a', 'b'] ['a', 'b'] [0, 0] 11 ⟨0, 0⟩ = .ok r) :=
  ⟨(wordSearch_terminates ['a', 'a', 'b'] ['a', 'b']).1,
    (wordSearch_terminates ['a', 'a', 'b'] ['a', 'b']).2.1 9 (by decide),
    (wordSearch_terminates ['a', 'a', 'b'] ['a', 'b']).2.2 (by decide) [0, 0] (by decide) 11
      (by decide)⟩

theorem tableLoopIterations_le {word : List Char} (fuel : Nat) :
    ∀ s : TableState, TableInv word s →
      tableLoopIterations word fuel s + 2 * s.suffixPointer ≤
        2 * word.length + s.prefixPointer := by
  induction fuel with
  | zero =>
    intro s h
    have := h.sp_le
    simp only [tableLoopIterations]
    omega
  | succ fuel ih =>
    intro s h
    by_cases hlt : s.suffixPointer < word.length
    · obtain ⟨s', hs', hinv, hmeas⟩ := tableStep_spec h hlt
      have := ih s' hinv
      simp only [tableLoopIterations, if_pos hlt, hs']
      omega
    · have := h.sp_le
      simp only [tableLoopIterations, if_neg hlt]
      omega

theorem scanLoopIterations_le {line word : List Char} {LPS : List Nat}
    (hT : TableOK word LPS) (fuel : Nat) :
    ∀ s : ScanState, ScanInv line word s →
      scanLoopIterations line word LPS fuel s + 2 * s.linePointer ≤
        2 * line.length + s.wordPointer := by
  induction fuel with
  | zero =>
    intro s h
    have := h.lp_le
    simp only [scanLoopIterations]
    omega
  | succ fuel ih =>
    intro s h
    by_cases hlt : s.linePointer < line.length
    · rcases scanStep_spec h hT hlt with ⟨q, hq, _⟩ | ⟨s', hs', hinv, hmeas⟩
      · simp only [scanLoopIterations, if_pos hlt, hq]
        omega
      · have := ih s' hinv
        simp only [scanLoopIterations, if_pos hlt, hs']
        omega
    · have := h.lp_le
      simp only [scanLoopIterations, if_neg hlt]
      omega

/-- C18: for every line of length `n` and word of length `m`, the
table-building loop executes at most `2 * m` iterations and the scanning
loop at most `2 * n` iterations, however much fuel is allowed, and the only
auxiliary array is the table of `m` integers. -/
theorem wordSearch_linear (line word : List Char) :
    (∀ fuel, tableLoopIterations word fuel ⟨0, 1, List.replicate word.length 0⟩ ≤
      2 * word.length) ∧
    ∃ LPS, buildLPS word = .ok LPS ∧ LPS.length = word.length ∧
      ∀ fuel, scanLoopIterations line word LPS fuel ⟨0, 0⟩ ≤ 2 * line.length := by
  by_cases hm : 0 < word.length
  · constructor
    · intro fuel
      have := tableLoopIterations_le fuel _ (tableInv_init word hm)
      simp only at this
      omega
    · obtain ⟨LPS, hL, hlen, hT⟩ := buildLPS_spec word hm
      refine ⟨LPS, hL, hlen, fun fuel => ?_⟩
      have := scanLoopIterations_le hT fuel _ (scanInv_init line word hm)
      simp only at this
      omega
  · have hw : word = [] := List.length_eq_zero.mp (by omega)
    subst hw
    constructor
    · intro fuel
      cases fuel with
      | zero => simp [tableLoopIterations]
      | succ fuel => simp [tableLoopIterations]
    · refine ⟨[], by decide, rfl, fun fuel => ?_⟩
      cases fuel with
      | zero => simp [scanLoopIterations]
      | succ fuel =>
        by_cases hl : 0 < line.length
        · simp only [scanLoopIterations, if_pos hl, scanStep, List.getElem?_nil]
          omega
        · simp only [scanLoopIterations, if_neg hl]
          omega


theorem fgetsChars_strip (k : Nat) :
    ∀ stream : List Char,
      stripNewline (fgetsChars k stream).1 = (stripNewline stream).take k := by
  induction k with
  | zero =>
    intro stream
    simp [fgetsChars, stripNewline]
  | succ k ih =>
    intro stream
    cases stream with
    | nil => simp [fgetsChars, stripNewline]
    | cons c t =>
      have := ih t
      unfold stripNewline at this ⊢
      by_cases hc : c = newline
      · simp [fgetsChars, hc]
      · simp only [fgetsChars, if_neg hc]
        rw [List.takeWhile_cons, if_pos (decide_eq_true hc), this, List.takeWhile_cons,
          if_pos (decide_eq_true hc), List.take_succ_cons]

theorem fgetsChars_mem (k : Nat) :
    ∀ (stream : List Char) (x : Char), x ∈ (fgetsChars k stream).1 → x ∈ stream := by
  induction k with
  | zero =>
    intro stream x hx
    simp [fgetsChars] at hx
  | succ k ih =>
    intro stream x hx
    cases stream with
    | nil => simp [fgetsChars] at hx
    | cons c t =>
      by_cases hc : c = newline
      · simp only [fgetsChars, if_pos hc, List.mem_singleton] at hx
        rw [hx]
        exact List.mem_cons_self c t
      · simp only [fgetsChars, if_neg hc, List.mem_cons] at hx
        rcases hx with h | h
        · rw [h]
          exact List.mem_cons_self c t
        · exact List.mem_cons_of_mem c (ih t x h)

theorem fgetsChars_length (k : Nat) :
    ∀ stream : List Char, (fgetsChars k stream).1.length ≤ k := by
  induction k with
  | zero =>
    intro stream
    simp [fgetsChars]
  | succ k ih =>
    intro stream
    cases stream with
    | nil => simp [fgetsChars]
    | cons c t =>
      have := ih t
      by_cases hc : c = newline
      · simp [fgetsChars, hc]
      · simp only [fgetsChars, if_neg hc, List.length_cons]
        omega

theorem fgets_length {n : Int} {stream bytes rest : List Char}
    (h : fgets n stream = some (bytes, rest)) : (bytes.length : Int) ≤ n - 1 := by
  unfold fgets at h
  by_cases h1 : n ≤ 0
  · rw [if_pos h1] at h
    simp at h
  · rw [if_neg h1] at h
    by_cases h2 : n = 1
    · rw [if_pos h2] at h
      simp only [Option.some.injEq, Prod.mk.injEq] at h
      rw [← h.1]
      simp only [List.length_nil]
      omega
    · rw [if_neg h2] at h
      cases stream with
      | nil => simp at h
      | cons c t =>
        simp only [Option.some.injEq] at h
        have hl := fgetsChars_length (n - 1).toNat (c :: t)
        rw [h] at hl
        simp only at hl
        omega

/-- C19: with `max_length ≥ 2`, room in the buffer and a non-empty input
without NUL, the insert case stores the input up to (not including) its
first newline, truncated to its first `max_length - 1` characters, which is
at most `max_length - 1` characters long; and whatever the input, a line
stored by a successful insert has at most `max_length - 1` characters. -/
theorem insert_stores_truncated_line :
    (∀ (e : Editor) (stdin : List Char), 2 ≤ e.max_length → stdin ≠ [] → NUL ∉ stdin →
      0 ≤ e.num_strings → e.num_strings < e.max_strings →
      (e.buffer.length : Int) = e.max_strings →
      ∃ e1 rest, insertCase e stdin = .ok (.textEntered, e1, rest) ∧
        e1.buffer[e.num_strings.toNat]? =
          some (some ((stripNewline stdin).take (e.max_length - 1).toNat)) ∧
        (((stripNewline stdin).take (e.max_length - 1).toNat).length : Int) ≤
          e.max_length - 1) ∧
    (∀ (e e1 : Editor) (stdin rest : List Char),
      insertCase e stdin = .ok (.textEntered, e1, rest) →
      ∃ text, e1.buffer[e.num_strings.toNat]? = some (some text) ∧
        (text.length : Int) ≤ e.max_length - 1) := by
  constructor
  · intro e stdin hml hne hnul h0 hcap hbuf
    have hfull : ¬ e.num_strings + 1 > e.max_strings := by omega
    have h1 : ¬ e.max_length ≤ 0 := by omega
    have h2 : ¬ e.max_length = 1 := by omega
    have hlt : e.num_strings.toNat < e.buffer.length := by omega
    have hread : fgets e.max_length stdin =
        some (fgetsChars (e.max_length - 1).toNat stdin) := by
      unfold fgets
      rw [if_neg h1, if_neg h2]
      cases stdin with
      | nil => exact absurd rfl hne
      | cons c t => rfl
    have hbytes : NUL ∉ (fgetsChars (e.max_length - 1).toNat stdin).1 :=
      fun hmem => hnul (fgetsChars_mem _ stdin NUL hmem)
    have hidx : e.num_strings + 1 - 1 = ((e.num_strings.toNat : Nat) : Int) := by omega
    refine ⟨⟨e.max_length, e.max_strings,
      e.buffer.set e.num_strings.toNat
        (some ((stripNewline stdin).take (e.max_length - 1).toNat)),
      e.num_strings + 1⟩, (fgetsChars (e.max_length - 1).toNat stdin).2, ?_, ?_, ?_⟩
    · unfold insertCase
      simp only [if_neg hfull, hread, cstring_eq_self _ hbytes, fgetsChars_strip, hidx,
        setSlot_natCast e.buffer _ _ hlt]
    · simp only
      rw [List.getElem?_set_self hlt]
    · have := List.length_take_le (e.max_length - 1).toNat (stripNewline stdin)
      omega
  · intro e e1 stdin rest h
    obtain ⟨bytes, hread, h0, hlt, _, he1⟩ := insertCase_textEntered h
    subst he1
    refine ⟨stripNewline (cstring bytes), ?_, ?_⟩
    · simp only
      rw [List.getElem?_set_self (by omega)]
    · have hb := fgets_length hread
      have h1 : (stripNewline (cstring bytes)).length ≤ (cstring bytes).length :=
        (List.takeWhile_prefix _).length_le
      have h2 : (cstring bytes).length ≤ bytes.length :=
        (List.takeWhile_prefix _).length_le
      omega

/-- Witness of C19: with `max_length = 4` the input "abcdef\n" is stored as
"abc", and the stored line of the successful insert of "ab\n" has at most 3
characters. -/
theorem insert_stores_truncated_line_witness :
    (∃ e1 rest, insertCase (freshEditor 4 2) ("abcdef".toList ++ [newline]) =
        .ok (.textEntered, e1, rest) ∧
      e1.buffer[(0 : Int).toNat]? =
        some (some ((stripNewline ("abcdef".toList ++ [newline])).take ((4 : Int) - 1).toNat)) ∧
      (((stripNewline ("abcdef".toList ++ [newline])).take ((4 : Int) - 1).toNat).length : Int) ≤
        4 - 1) ∧
    (∃ text, (⟨4, 2, [some ['a', 'b'], none], 1⟩ : Editor).buffer[(0 : Int).toNat]? =
        some (some text) ∧ (text.length : Int) ≤ 4 - 1) :=
  ⟨insert_stores_truncated_line.1 (freshEditor 4 2) ("abcdef".toList ++ [newline])
      (by decide) (by decide) (by decide) (by decide) (by decide) (by decide),
    insert_stores_truncated_line.2 (freshEditor 4 2) ⟨4, 2, [some ['a', 'b'], none], 1⟩
      ['a', 'b', newline] [] (by decide)⟩

theorem tableReachable_inv {word : List Char} (hm : 0 < word.length) {s : TableState}
    (h : TableReachable word s) : TableInv word s := by
  induction h with
  | start => exact tableInv_init word hm
  | iterate _ hlt hstep ih =>
    obtain ⟨s'', hs'', hinv, _⟩ := tableStep_spec ih hlt
    rw [hstep] at hs''
    rw [Except.ok.inj hs'']
    exact hinv

theorem scanReachable_inv {line word : List Char} {LPS : List Nat}
    (hm : 0 < word.length) (hT : TableOK word LPS) {s : ScanState}
    (h : ScanReachable line word LPS s) : ScanInv line word s := by
  induction h with
  | start => exact scanInv_init line word hm
  | iterate _ hlt hstep ih =>
    rcases scanStep_spec ih hT hlt with ⟨q, hq, _⟩ | ⟨s'', hs'', hinv, _⟩
    · rw [hstep] at hq
      simp at hq
    · rw [hstep] at hs''
      have : ScanOutcome.next _ = ScanOutcome.next _ := Except.ok.inj hs''
      rw [ScanOutcome.next.inj this]
      exact hinv

/-- C20: for a word of length `m > 0` and a line of length `n` (as when the
KMP phase is reached, `0 < m < n`), every time the body of the table loop
runs, `prefixPointer < suffixPointer < m`
and the table has `m` entries, so `word[prefixPointer]`,
`word[suffixPointer]`, `LPS[suffixPointer]` and `LPS[prefixPointer - 1]` are
in bounds and the iteration does not fail; every time the body of the scan
loop runs, `wordPointer < m` and `linePointer < n`, so `word[wordPointer]`,
`line[linePointer]` and `LPS[wordPointer - 1]` are in bounds and the
iteration does not fail; and `WordSearch` returns a value, not an indexing
fault. -/
theorem wordSearch_indices_in_bounds (line word : List Char) (hm : 0 < word.length) :
    (∀ s, TableReachable word s → s.suffixPointer < word.length →
      s.prefixPointer < s.suffixPointer ∧ s.LPS.length = word.length ∧
        ∃ s', tableStep word s = .ok s') ∧
    (∀ LPS, buildLPS word = .ok LPS → ∀ s, ScanReachable line word LPS s →
      s.linePointer < line.length →
      s.wordPointer < word.length ∧ LPS.length = word.length ∧
        ∃ o, scanStep line word LPS s = .ok o) ∧
    (∃ r : Int, WordSearch line word = .ok r) ∧
    WordSearch line word ≠ .error .indexOutOfRange := by
  have hret : ∃ r : Int, WordSearch line word = .ok r := by
    rcases wordSearch_spec line word with ⟨q, hq, _⟩ | ⟨hq, _⟩
    · exact ⟨q, hq⟩
    · exact ⟨-1, hq⟩
  refine ⟨fun s hs hlt => ?_, fun LPS hL s hs hlt => ?_, hret, ?_⟩
  · have hinv := tableReachable_inv hm hs
    obtain ⟨s', hs', _, _⟩ := tableStep_spec hinv hlt
    exact ⟨hinv.border.1, hinv.len, s', hs'⟩
  · obtain ⟨hlen, hT⟩ := buildLPS_tableOK hm hL
    have hinv := scanReachable_inv hm hT hs
    rcases scanStep_spec hinv hT hlt with ⟨q, hq, _⟩ | ⟨s', hs', _, _⟩
    · exact ⟨hinv.wp_lt, hlen, _, hq⟩
    · exact ⟨hinv.wp_lt, hlen, _, hs'⟩
  · obtain ⟨r, hr⟩ := hret
    rw [hr]
    simp

/-- Witness of C20: searching "ab" in "aab": the first iteration of each loop
runs within bounds, and the search returns. -/
theorem wordSearch_indices_in_bounds_witness :
    ((0 : Nat) < 1 ∧ [0, 0].length = ['a', 'b'].length ∧
      ∃ s', tableStep ['a', 'b'] ⟨0, 1, [0, 0]⟩ = .ok s') ∧
    ((0 : Nat) < ['a', 'b'].length ∧ [0, 0].length = ['a', 'b'].length ∧
      ∃ o, scanStep ['a', 'a', 'b'] ['a', 'b'] [0, 0] ⟨0, 0⟩ = .ok o) ∧
    (∃ r : Int, WordSearch ['a', 'a', 'b'] ['a', 'b'] = .ok r) ∧
    WordSearch ['a', 'a', 'b'] ['a', 'b'] ≠ .error .indexOutOfRange :=
  ⟨(wordSearch_indices_in_bounds ['a', 'a', 'b'] ['a', 'b'] (by decide)).1
      ⟨0, 1, [0, 0]⟩ TableReachable.start (by decide),
    (wordSearch_indices_in_bounds ['a', 'a', 'b'] ['a', 'b'] (by decide)).2.1
      [0, 0] (by decide) ⟨0, 0⟩ ScanReachable.start (by decide),
    (wordSearch_indices_in_bounds ['a', 'a', 'b'] ['a', 'b'] (by decide)).2.2⟩

end TextEditor
